import Mathlib

/-!
# Verification of the portfolio valuation/performance engine

Shallow embedding of the core of `ie_csv_server-rs` (price fallback lookup,
currency conversion, holdings replay, valuation persistence, monthly
contribution bucketing, XIRR / TWR statistics, precompute orchestration),
together with theorems settling the specification claims.

Modelling conventions:
* `chrono::NaiveDate` is embedded as `Int` (a day number); `pred_opt` /
  `succ_opt` always succeed in this range-free model.
* `chrono::NaiveDateTime` is embedded as an `Int` timestamp in seconds;
  `.date()` is floor division by 86400.
* `rust_decimal::Decimal` and `f64` are embedded as exact rationals `ℚ`
  (the claims under study are about control flow and exact algebraic
  structure, not rounding).
* `f64::powf` appears only at the very end of the TWR/XIRR computations; it
  is passed in as an explicit function argument `powf : ℚ → ℚ → ℚ`, so every
  statement is parametric in the power operation.
* fallible Rust code (`Result<..>`) is embedded as `Except String ..`.
* `HashMap` built by repeated insertion is embedded as an association list
  (`lookupKV` finds the first matching key, so "later insert wins" maps are
  reversed before lookup where relevant).
-/

/-- Day number standing in for `chrono::NaiveDate`. -/
abbrev Date := Int

/-- First-match association-list lookup (model of `HashMap::get` for maps
built without overwriting, and of Rust `fx_config` lookups). -/
def lookupKV {κ β : Type} [DecidableEq κ] (k : κ) : List (κ × β) → Option β
  | [] => none
  | p :: rest => if p.1 = k then some p.2 else lookupKV k rest

/-- Uppercase of a string, as a character list (model of `str::to_uppercase`
restricted to ASCII, which is all the repository compares against). -/
def upperStr (s : String) : List Char := s.data.map Char.toUpper

/-- Does `nd` occur as a prefix of `hay`? -/
def prefixAt : List Char → List Char → Bool
  | [], _ => true
  | _ :: _, [] => false
  | a :: as, b :: bs => a = b && prefixAt as bs

/-- Does `nd` occur as a contiguous substring of `hay`?
(model of `str::contains`). -/
def hasInfix (hay nd : List Char) : Bool :=
  prefixAt nd hay ||
    (match hay with
     | [] => false
     | _ :: t => hasInfix t nd)

/-! ## CurrencyNormalizer (`src/prices.rs`) -/

/-- The fixed per-currency FX table of `CurrencyConverter::new`:
currency ↦ (FX ticker, multiply?). -/
def fx_config : List (String × (String × Bool)) :=
  [("USD", ("GBPUSD=X", false)), ("EUR", ("EURGBP=X", true))]

/-- `CurrencyConverter::get_fx_ticker`. -/
def get_fx_ticker (currency : String) : Option String :=
  (lookupKV currency fx_config).map Prod.fst

/-- `CurrencyConverter::convert_to_gbp`.  The `date` argument is only used in
error messages in the source; we keep it for signature fidelity. -/
def convert_to_gbp (amount : ℚ) (currency : String) (date : Date)
    (fx_rate : Option ℚ) : Except String ℚ :=
  if currency = "GBP" ∨ currency = "GBp" then
    if currency = "GBp" then Except.ok (amount / 100)
    else Except.ok amount
  else
    match lookupKV currency fx_config with
    | some (_, multiply) =>
      match fx_rate with
      | none => Except.error ("FX rate required for " ++ currency)
      | some rate =>
        if rate = 0 then
          Except.error ("FX rate is zero for " ++ currency ++ " on " ++ toString date)
        else if multiply then Except.ok (amount * rate)
        else Except.ok (amount / rate)
    | none => Except.error ("Unknown currency: " ++ currency)

/-- Is a conversion result an error? -/
def isConvErr : Except String ℚ → Bool
  | Except.error _ => true
  | Except.ok _ => false

/-- C6: GBP passes through unchanged; GBp divides by 100; a currency in the
fixed table applies its multiply-or-divide rule to the supplied rate (so 100
USD at rate 1.25 under the divide rule is 80) and errors exactly when the
rate is missing or zero; a currency outside the table errors. -/
theorem convert_to_gbp_spec (amount : ℚ) (date : Date) (fx : Option ℚ) :
    convert_to_gbp amount "GBP" date fx = Except.ok amount ∧
    convert_to_gbp amount "GBp" date fx = Except.ok (amount / 100) ∧
    convert_to_gbp 100 "USD" date (some (5/4)) = Except.ok 80 ∧
    (∀ c tk mult, c ≠ "GBP" → c ≠ "GBp" →
      lookupKV c fx_config = some (tk, mult) →
      ((isConvErr (convert_to_gbp amount c date fx) = true ↔ fx = none ∨ fx = some 0) ∧
       ∀ r, fx = some r → r ≠ 0 →
         convert_to_gbp amount c date fx =
           Except.ok (if mult then amount * r else amount / r))) ∧
    (∀ c, c ≠ "GBP" → c ≠ "GBp" → lookupKV c fx_config = none →
      isConvErr (convert_to_gbp amount c date fx) = true) := by
  refine ⟨rfl, rfl, ?_, ?_, ?_⟩
  · have hne : ¬("USD" = "GBP" ∨ "USD" = "GBp") := by decide
    simp only [convert_to_gbp, if_neg hne]
    norm_num [fx_config, lookupKV]
  · intro c tk mult h1 h2 hc
    have hne : ¬(c = "GBP" ∨ c = "GBp") := by simp [h1, h2]
    constructor
    · constructor
      · intro herr
        cases fx with
        | none => exact Or.inl rfl
        | some r =>
          by_cases hr : r = 0
          · exact Or.inr (by rw [hr])
          · exfalso
            simp only [convert_to_gbp, if_neg hne, hc] at herr
            rw [if_neg hr] at herr
            cases mult <;> simp [isConvErr] at herr
      · rintro (hfx | hfx) <;> subst hfx <;>
          simp [convert_to_gbp, if_neg hne, hc, isConvErr]
    · intro r hfx hr
      subst hfx
      simp only [convert_to_gbp, if_neg hne, hc, if_neg hr]
      cases mult <;> simp
  · intro c h1 h2 hc
    have hne : ¬(c = "GBP" ∨ c = "GBp") := by simp [h1, h2]
    simp [convert_to_gbp, if_neg hne, hc, isConvErr]

/-- Witness for C6 at concrete inputs: checks the pass-through, the
minor-unit rule, the 100 USD / 1.25 example, the zero-rate failure and the
multiply/divide rule for a table currency, and the unknown-currency failure. -/
theorem convert_to_gbp_spec_witness :
    convert_to_gbp 100 "GBP" 0 (some 0) = Except.ok 100 ∧
    convert_to_gbp 100 "GBp" 0 (some 0) = Except.ok 1 ∧
    convert_to_gbp 100 "USD" 0 (some (5/4)) = Except.ok 80 ∧
    isConvErr (convert_to_gbp 100 "USD" 0 (some 0)) = true ∧
    convert_to_gbp 100 "USD" 3 (some (5/4)) = Except.ok 80 ∧
    isConvErr (convert_to_gbp 100 "JPY" 0 (some 2)) = true := by
  have h0 := convert_to_gbp_spec 100 0 (some 0)
  have h1 := convert_to_gbp_spec 100 3 (some (5/4))
  refine ⟨h0.1, ?_, h0.2.2.1, ?_, ?_, ?_⟩
  · have := h0.2.1
    rw [this]
    norm_num
  · exact ((h0.2.2.2.1 "USD" "GBPUSD=X" false (by decide) (by decide)
      (by decide)).1).mpr (Or.inr rfl)
  · have := (h1.2.2.2.1 "USD" "GBPUSD=X" false (by decide) (by decide)
      (by decide)).2 (5/4) rfl (by norm_num)
    rw [this]
    norm_num
  · exact h0.2.2.2.2 "JPY" (by decide) (by decide) (by decide)

/-! ## PriceSeriesResolver (`src/background_processor.rs`, `get_price_with_fallback`) -/

/-- One bounded scanning loop of `get_price_with_fallback`: starting at `d`,
step by `δ` (a day at a time; `-1` is the backward loop via `pred_opt`, `+1`
the forward loop via `succ_opt`), for at most `n` probes, returning the first
stored nonzero price. -/
def scanDir (p : Date → Option ℚ) (δ : Int) : Date → Nat → Option ℚ
  | _, 0 => none
  | d, n+1 =>
    match p d with
    | some v => if v ≠ 0 then some v else scanDir p δ (d + δ) n
    | none => scanDir p δ (d + δ) n

/-- The per-ticker stored price for a given date (`raw_prices[ticker][date]`). -/
def priceAt (raw : List (String × List (Date × ℚ))) (ticker : String) (d : Date) :
    Option ℚ :=
  (lookupKV ticker raw).bind (fun pm => lookupKV d pm)

/-- `get_price_with_fallback`: backward scan over 90 days, then forward scan
over 30 days, else zero. -/
def get_price_with_fallback (raw : List (String × List (Date × ℚ)))
    (ticker : String) (date : Date) : ℚ :=
  match lookupKV ticker raw with
  | some pm =>
    match scanDir (fun d => lookupKV d pm) (-1) date 90 with
    | some v => v
    | none =>
      match scanDir (fun d => lookupKV d pm) 1 date 30 with
      | some v => v
      | none => 0
  | none => 0

/-- There is a stored nonzero price at `d`. -/
def nzAt (p : Date → Option ℚ) (d : Date) : Prop :=
  ∃ w, p d = some w ∧ w ≠ 0

theorem not_nzAt {p : Date → Option ℚ} {d : Date} :
    ¬ nzAt p d ↔ ∀ w, p d = some w → w = 0 := by
  unfold nzAt
  constructor
  · intro h w hw
    by_contra hne
    exact h ⟨w, hw, hne⟩
  · rintro h ⟨w, hw, hne⟩
    exact hne (h w hw)

theorem scanDir_succ_none {p : Date → Option ℚ} {δ : Int} {d : Date} {n : Nat}
    (h : p d = none) : scanDir p δ d (n+1) = scanDir p δ (d + δ) n := by
  conv_lhs => unfold scanDir
  rw [h]

theorem scanDir_succ_some_nz {p : Date → Option ℚ} {δ : Int} {d : Date} {n : Nat}
    {v : ℚ} (h : p d = some v) (hv : v ≠ 0) : scanDir p δ d (n+1) = some v := by
  conv_lhs => unfold scanDir
  rw [h]
  simp [hv]

theorem scanDir_succ_some_z {p : Date → Option ℚ} {δ : Int} {d : Date} {n : Nat}
    {v : ℚ} (h : p d = some v) (hv : v = 0) :
    scanDir p δ d (n+1) = scanDir p δ (d + δ) n := by
  conv_lhs => unfold scanDir
  rw [h]
  simp [hv]

theorem shiftIdx {d : Date} {δ : Int} (j : Nat) :
    d + δ + δ * (j : ℤ) = d + δ * ((j + 1 : ℕ) : ℤ) := by
  push_cast
  ring

theorem zeroIdx {d : Date} {δ : Int} : d + δ * ((0 : ℕ) : ℤ) = d := by
  push_cast
  ring

theorem scanDir_eq_none {p : Date → Option ℚ} {δ : Int} :
    ∀ {n : Nat} {d : Date}, scanDir p δ d n = none ↔
      ∀ k : Nat, k < n → ∀ w, p (d + δ * k) = some w → w = 0 := by
  intro n
  induction n with
  | zero =>
    intro d
    simp [scanDir]
  | succ m ih =>
    intro d
    cases hpd : p d with
    | none =>
      rw [scanDir_succ_none hpd, ih]
      constructor
      · intro h k hk w hw
        cases k with
        | zero =>
          rw [zeroIdx, hpd] at hw
          cases hw
        | succ j =>
          refine h j (by omega) w ?_
          rw [shiftIdx j]
          exact hw
      · intro h k hk w hw
        refine h (k + 1) (by omega) w ?_
        rw [← shiftIdx k]
        exact hw
    | some v =>
      by_cases hv : v = 0
      · rw [scanDir_succ_some_z hpd hv, ih]
        constructor
        · intro h k hk w hw
          cases k with
          | zero =>
            rw [zeroIdx, hpd] at hw
            cases hw
            exact hv
          | succ j =>
            refine h j (by omega) w ?_
            rw [shiftIdx j]
            exact hw
        · intro h k hk w hw
          refine h (k + 1) (by omega) w ?_
          rw [← shiftIdx k]
          exact hw
      · rw [scanDir_succ_some_nz hpd hv]
        constructor
        · intro h
          cases h
        · intro h
          exfalso
          refine hv (h 0 (by omega) v ?_)
          rw [zeroIdx]
          exact hpd

theorem scanDir_eq_some {p : Date → Option ℚ} {δ : Int} :
    ∀ {n : Nat} {d : Date} {v : ℚ}, scanDir p δ d n = some v →
      ∃ k : Nat, k < n ∧ p (d + δ * k) = some v ∧ v ≠ 0 ∧
        ∀ j : Nat, j < k → ∀ w, p (d + δ * j) = some w → w = 0 := by
  intro n
  induction n with
  | zero =>
    intro d v h
    cases h
  | succ m ih =>
    intro d v h
    cases hpd : p d with
    | none =>
      rw [scanDir_succ_none hpd] at h
      obtain ⟨k, hk, hpk, hvne, hmin⟩ := ih h
      refine ⟨k + 1, by omega, ?_, hvne, ?_⟩
      · rw [← shiftIdx k]
        exact hpk
      · intro j hj w hw
        cases j with
        | zero =>
          rw [zeroIdx, hpd] at hw
          cases hw
        | succ i =>
          refine hmin i (by omega) w ?_
          rw [shiftIdx i]
          exact hw
    | some v0 =>
      by_cases hv0 : v0 = 0
      · rw [scanDir_succ_some_z hpd hv0] at h
        obtain ⟨k, hk, hpk, hvne, hmin⟩ := ih h
        refine ⟨k + 1, by omega, ?_, hvne, ?_⟩
        · rw [← shiftIdx k]
          exact hpk
        · intro j hj w hw
          cases j with
          | zero =>
            rw [zeroIdx, hpd] at hw
            cases hw
            exact hv0
          | succ i =>
            refine hmin i (by omega) w ?_
            rw [shiftIdx i]
            exact hw
      · rw [scanDir_succ_some_nz hpd hv0] at h
        cases h
        refine ⟨0, by omega, ?_, hv0, by omega⟩
        rw [zeroIdx]
        exact hpd

theorem backIdx {d : Date} (k : Nat) : d + (-1) * (k : ℤ) = d - k := by
  ring

theorem fwdIdx {d : Date} (k : Nat) : d + 1 * (k : ℤ) = d + k := by
  ring

/-- C1: the fallback lookup returns the nearest stored nonzero price within
the 90-day backward window (the query date and the 89 preceding days); if
none exists there, the nearest stored nonzero price within the 30-day forward
window; and zero otherwise.  It is a total function (never an error) and a
nonzero result is always a price stored in the map at the witnessing date. -/
theorem get_price_with_fallback_spec (raw : List (String × List (Date × ℚ)))
    (ticker : String) (date : Date) :
    (∃ k : Nat, k < 90 ∧
      priceAt raw ticker (date - k) = some (get_price_with_fallback raw ticker date) ∧
      get_price_with_fallback raw ticker date ≠ 0 ∧
      ∀ j : Nat, j < k → ¬ nzAt (priceAt raw ticker) (date - j)) ∨
    ((∀ k : Nat, k < 90 → ¬ nzAt (priceAt raw ticker) (date - k)) ∧
     ((∃ k : Nat, k < 30 ∧
        priceAt raw ticker (date + k) = some (get_price_with_fallback raw ticker date) ∧
        get_price_with_fallback raw ticker date ≠ 0 ∧
        ∀ j : Nat, j < k → ¬ nzAt (priceAt raw ticker) (date + j)) ∨
      ((∀ k : Nat, k < 30 → ¬ nzAt (priceAt raw ticker) (date + k)) ∧
       get_price_with_fallback raw ticker date = 0))) := by
  cases hl : lookupKV ticker raw with
  | none =>
    have hp : ∀ d, priceAt raw ticker d = none := by
      intro d
      simp [priceAt, hl]
    have hr : get_price_with_fallback raw ticker date = 0 := by
      simp [get_price_with_fallback, hl]
    refine Or.inr ⟨?_, Or.inr ⟨?_, hr⟩⟩ <;>
      · intro k _
        rw [not_nzAt, hp]
        intro w hw
        cases hw
  | some pm =>
    have hp : ∀ d, priceAt raw ticker d = lookupKV d pm := by
      intro d
      simp [priceAt, hl]
    cases hb : scanDir (fun d => lookupKV d pm) (-1) date 90 with
    | some v =>
      have hr : get_price_with_fallback raw ticker date = v := by
        simp [get_price_with_fallback, hl, hb]
      obtain ⟨k, hk, hpk, hvne, hmin⟩ := scanDir_eq_some hb
      rw [backIdx k] at hpk
      refine Or.inl ⟨k, hk, ?_, by rw [hr]; exact hvne, ?_⟩
      · rw [hp, hr]
        exact hpk
      · intro j hj
        rw [not_nzAt, hp]
        intro w hw
        refine hmin j hj w ?_
        rw [backIdx j]
        exact hw
    | none =>
      have hback : ∀ k : Nat, k < 90 → ¬ nzAt (priceAt raw ticker) (date - k) := by
        intro k hk
        rw [not_nzAt, hp]
        intro w hw
        refine (scanDir_eq_none.mp hb) k hk w ?_
        rw [backIdx k]
        exact hw
      cases hf : scanDir (fun d => lookupKV d pm) 1 date 30 with
      | some v =>
        have hr : get_price_with_fallback raw ticker date = v := by
          simp [get_price_with_fallback, hl, hb, hf]
        obtain ⟨k, hk, hpk, hvne, hmin⟩ := scanDir_eq_some hf
        rw [fwdIdx k] at hpk
        refine Or.inr ⟨hback, Or.inl ⟨k, hk, ?_, by rw [hr]; exact hvne, ?_⟩⟩
        · rw [hp, hr]
          exact hpk
        · intro j hj
          rw [not_nzAt, hp]
          intro w hw
          refine hmin j hj w ?_
          rw [fwdIdx j]
          exact hw
      | none =>
        have hr : get_price_with_fallback raw ticker date = 0 := by
          simp [get_price_with_fallback, hl, hb, hf]
        refine Or.inr ⟨hback, Or.inr ⟨?_, hr⟩⟩
        intro k hk
        rw [not_nzAt, hp]
        intro w hw
        refine (scanDir_eq_none.mp hf) k hk w ?_
        rw [fwdIdx k]
        exact hw

/-! ## PerformanceCalculator: XIRR (`src/portfolio_stats.rs`, `calculate_xirr`) -/

/-- The inner accumulation of `f_val` in the Newton loop:
`f(r) = Σ CFᵢ·(1+r)^(−tᵢ)` accumulated left to right. -/
def xirrF (powf : ℚ → ℚ → ℚ) (years amounts : List ℚ) (rate : ℚ) : ℚ :=
  (years.zip amounts).foldl (fun acc p => acc + p.2 * powf (1 + rate) (-p.1)) 0

/-- The inner accumulation of `df_val` (the analytic derivative):
`f'(r) = Σ CFᵢ·(−tᵢ)·(1+r)^(−tᵢ)/(1+r)` accumulated left to right. -/
def xirrDF (powf : ℚ → ℚ → ℚ) (years amounts : List ℚ) (rate : ℚ) : ℚ :=
  (years.zip amounts).foldl
    (fun acc p => acc + p.2 * (-p.1) * powf (1 + rate) (-p.1) / (1 + rate)) 0

/-- The Newton-Raphson loop of `calculate_xirr` (`for _ in 0..max_iter`),
with the remaining iteration count as fuel. -/
def xirrGo (powf : ℚ → ℚ → ℚ) (years amounts : List ℚ) : Nat → ℚ → ℚ
  | 0, rate => rate
  | n+1, rate =>
    let rate1 := if rate ≤ -1 then -(99/100) else rate
    let f_val := xirrF powf years amounts rate1
    let df_val := xirrDF powf years amounts rate1
    if |f_val| < 1/1000000 then rate1
    else if |df_val| < 1/1000000000 then rate1
    else
      let new_rate := rate1 - f_val / df_val
      if |new_rate - rate1| < 1/1000000 then new_rate
      else xirrGo powf years amounts n new_rate

instance instIsTotalFstLe : IsTotal (Date × ℚ) (fun x y => x.1 ≤ y.1) :=
  ⟨fun a b => le_total a.1 b.1⟩

instance instIsTransFstLe : IsTrans (Date × ℚ) (fun x y => x.1 ≤ y.1) :=
  ⟨fun _ _ _ hab hbc => le_trans hab hbc⟩

/-- `calculate_xirr`: guards, sort by date, day-count fractions over 365.25,
sign check, then at most 100 Newton-Raphson iterations. -/
def calculate_xirr (powf : ℚ → ℚ → ℚ) (dates : List Date) (amounts : List ℚ)
    (guess : ℚ) : ℚ :=
  if dates.length ≠ amounts.length ∨ dates.length < 2 then 0
  else
    let data := List.insertionSort (fun x y : Date × ℚ => x.1 ≤ y.1) (dates.zip amounts)
    let start_date := (data.head?.map Prod.fst).getD 0
    let years := data.map (fun p => ((p.1 - start_date : ℤ) : ℚ) / (1461/4))
    let amounts_vec := data.map Prod.snd
    let has_pos := amounts_vec.any (fun a => decide (0 < a))
    let has_neg := amounts_vec.any (fun a => decide (a < 0))
    if ¬has_pos ∨ ¬has_neg then 0
    else xirrGo powf years amounts_vec 100 guess

theorem snd_insertionSort_zip_mem {dates : List Date} {amounts : List ℚ}
    (hlen : dates.length = amounts.length) (a : ℚ) :
    (a ∈ (List.insertionSort (fun x y : Date × ℚ => x.1 ≤ y.1)
        (dates.zip amounts)).map Prod.snd) ↔ a ∈ amounts := by
  have hperm := (List.perm_insertionSort
    (fun x y : Date × ℚ => x.1 ≤ y.1) (dates.zip amounts)).map Prod.snd
  rw [hperm.mem_iff, List.map_snd_zip dates amounts (by omega)]

/-- C3: with fewer than two events, or with no strictly positive amount, or
with no strictly negative amount, `calculate_xirr` returns exactly `0`
(it is a total function, so no error can be signalled). -/
theorem calculate_xirr_degenerate (powf : ℚ → ℚ → ℚ) (dates : List Date)
    (amounts : List ℚ) (guess : ℚ)
    (h : dates.length < 2 ∨ (¬ ∃ a ∈ amounts, 0 < a) ∨ (¬ ∃ a ∈ amounts, a < 0)) :
    calculate_xirr powf dates amounts guess = 0 := by
  by_cases hguard : dates.length ≠ amounts.length ∨ dates.length < 2
  · simp only [calculate_xirr, if_pos hguard]
  · push_neg at hguard
    obtain ⟨hlen, h2⟩ := hguard
    rcases h with hlt | hnp | hnn
    · omega
    · simp only [calculate_xirr, if_neg (by omega : ¬(dates.length ≠ amounts.length ∨ dates.length < 2))]
      rw [if_pos]
      left
      simp only [Bool.not_eq_true, List.any_eq_false, decide_eq_true_eq]
      intro p hp hlt
      exact hnp ⟨p, (snd_insertionSort_zip_mem hlen p).mp hp, hlt⟩
    · simp only [calculate_xirr, if_neg (by omega : ¬(dates.length ≠ amounts.length ∨ dates.length < 2))]
      rw [if_pos]
      right
      simp only [Bool.not_eq_true, List.any_eq_false, decide_eq_true_eq]
      intro p hp hlt
      exact hnn ⟨p, (snd_insertionSort_zip_mem hlen p).mp hp, hlt⟩

/-- Witness for C3: two same-signed flows give exactly 0, and a single flow
gives exactly 0, under an arbitrary concrete power function. -/
theorem calculate_xirr_degenerate_witness :
    ((¬ ∃ a ∈ ([3, 5] : List ℚ), a < 0) ∧
      calculate_xirr (fun _ _ => 1) [0, 10] [3, 5] (1/10) = 0) ∧
    (([(0 : Date)].length < 2) ∧
      calculate_xirr (fun _ _ => 1) [0] [-7] (1/10) = 0) := by
  refine ⟨⟨by decide, ?_⟩, by decide, ?_⟩
  · exact calculate_xirr_degenerate (fun _ _ => 1) [0, 10] [3, 5] (1/10)
      (Or.inr (Or.inr (by decide)))
  · exact calculate_xirr_degenerate (fun _ _ => 1) [0] [-7] (1/10) (Or.inl (by decide))

/-- The clamp applied at the top of each Newton iteration
(`if rate <= -1.0 { rate = -0.99 }`). -/
def clampRate (r : ℚ) : ℚ := if r ≤ -1 then -(99/100) else r

theorem xirrGo_succ (powf : ℚ → ℚ → ℚ) (years amts : List ℚ) (n : Nat) (r : ℚ) :
    xirrGo powf years amts (n+1) r =
      (let rate1 := clampRate r
       let f_val := xirrF powf years amts rate1
       let df_val := xirrDF powf years amts rate1
       if |f_val| < 1/1000000 then rate1
       else if |df_val| < 1/1000000000 then rate1
       else
         let new_rate := rate1 - f_val / df_val
         if |new_rate - rate1| < 1/1000000 then new_rate
         else xirrGo powf years amts n new_rate) := rfl

theorem foldl_add_map {α : Type} (g : α → ℚ) :
    ∀ (l : List α) (a : ℚ), l.foldl (fun acc x => acc + g x) a = a + (l.map g).sum := by
  intro l
  induction l with
  | nil => intro a; simp
  | cons x xs ih =>
    intro a
    simp only [List.foldl_cons, List.map_cons, List.sum_cons, ih]
    ring

theorem xirrF_eq (powf : ℚ → ℚ → ℚ) (years amts : List ℚ) (r : ℚ) :
    xirrF powf years amts r =
      ((years.zip amts).map (fun p => p.2 * powf (1 + r) (-p.1))).sum := by
  unfold xirrF
  rw [foldl_add_map, zero_add]

theorem xirrDF_eq (powf : ℚ → ℚ → ℚ) (years amts : List ℚ) (r : ℚ) :
    xirrDF powf years amts r =
      ((years.zip amts).map
        (fun p => p.2 * (-p.1) * powf (1 + r) (-p.1) / (1 + r))).sum := by
  unfold xirrDF
  rw [foldl_add_map, zero_add]

/-- C4: past the guards, `calculate_xirr` sorts the events by date, computes
`tᵢ` as days since the earliest event divided by 365.25, and runs at most 100
Newton-Raphson iterations on `f(r) = Σ CFᵢ·(1+r)^(−tᵢ)` with the analytic
derivative; a rate `≤ −1` at the start of an iteration is clamped to `−0.99`
before evaluating, and as soon as `|f(r)| < 1e-6` the current (clamped) rate
is returned. -/
theorem calculate_xirr_newton (powf : ℚ → ℚ → ℚ) (dates : List Date)
    (amounts : List ℚ) (guess : ℚ)
    (hlen : dates.length = amounts.length) (h2 : 2 ≤ dates.length)
    (hpos : ∃ a ∈ amounts, 0 < a) (hneg : ∃ a ∈ amounts, a < 0) :
    ∃ data : List (Date × ℚ),
      data.Perm (dates.zip amounts) ∧
      List.Sorted (fun x y : Date × ℚ => x.1 ≤ y.1) data ∧
      (∀ p ∈ data, (data.head?.map Prod.fst).getD 0 ≤ p.1) ∧
      calculate_xirr powf dates amounts guess =
        xirrGo powf
          (data.map (fun p =>
            ((p.1 - (data.head?.map Prod.fst).getD 0 : ℤ) : ℚ) / (1461/4)))
          (data.map Prod.snd) 100 guess ∧
      (∀ (years amts : List ℚ) (r : ℚ), xirrGo powf years amts 0 r = r) ∧
      (∀ (years amts : List ℚ) (n : Nat) (r : ℚ),
        |((years.zip amts).map
            (fun p => p.2 * powf (1 + clampRate r) (-p.1))).sum| < 1/1000000 →
        xirrGo powf years amts (n+1) r = clampRate r) ∧
      (∀ (years amts : List ℚ) (n : Nat) (r : ℚ),
        ¬ |((years.zip amts).map
            (fun p => p.2 * powf (1 + clampRate r) (-p.1))).sum| < 1/1000000 →
        ¬ |((years.zip amts).map
            (fun p => p.2 * (-p.1) * powf (1 + clampRate r) (-p.1) / (1 + clampRate r))).sum|
              < 1/1000000000 →
        ¬ |(clampRate r -
              ((years.zip amts).map
                (fun p => p.2 * powf (1 + clampRate r) (-p.1))).sum /
              ((years.zip amts).map
                (fun p => p.2 * (-p.1) * powf (1 + clampRate r) (-p.1) / (1 + clampRate r))).sum)
            - clampRate r| < 1/1000000 →
        xirrGo powf years amts (n+1) r =
          xirrGo powf years amts n
            (clampRate r -
              ((years.zip amts).map
                (fun p => p.2 * powf (1 + clampRate r) (-p.1))).sum /
              ((years.zip amts).map
                (fun p => p.2 * (-p.1) * powf (1 + clampRate r) (-p.1) / (1 + clampRate r))).sum)) := by
  refine ⟨List.insertionSort (fun x y : Date × ℚ => x.1 ≤ y.1) (dates.zip amounts),
    List.perm_insertionSort _ _, List.sorted_insertionSort _ _, ?_, ?_, ?_, ?_, ?_⟩
  · cases hd : List.insertionSort (fun x y : Date × ℚ => x.1 ≤ y.1) (dates.zip amounts) with
    | nil => intro p hp; cases hp
    | cons a l =>
      intro p hp
      have hs := List.sorted_insertionSort (fun x y : Date × ℚ => x.1 ≤ y.1) (dates.zip amounts)
      rw [hd, List.sorted_cons] at hs
      simp only [List.head?_cons, Option.map_some', Option.getD_some]
      rcases List.mem_cons.mp hp with h | h
      · rw [h]
      · exact hs.1 p h
  · have h1 : ¬(dates.length ≠ amounts.length ∨ dates.length < 2) := by omega
    simp only [calculate_xirr, if_neg h1]
    rw [if_neg]
    rintro (hp | hn)
    · obtain ⟨a, ha, hlt⟩ := hpos
      rw [Bool.not_eq_true, List.any_eq_false] at hp
      exact absurd hlt (by simpa using hp a ((snd_insertionSort_zip_mem hlen a).mpr ha))
    · obtain ⟨a, ha, hlt⟩ := hneg
      rw [Bool.not_eq_true, List.any_eq_false] at hn
      exact absurd hlt (by simpa using hn a ((snd_insertionSort_zip_mem hlen a).mpr ha))
  · intro years amts r
    rfl
  · intro years amts n r hsmall
    rw [xirrGo_succ]
    simp only []
    rw [if_pos]
    rw [xirrF_eq]
    exact hsmall
  · intro years amts n r hf hdf hstep
    rw [xirrGo_succ]
    simp only []
    rw [if_neg (by rw [xirrF_eq]; exact hf),
        if_neg (by rw [xirrDF_eq]; exact hdf),
        if_neg (by rw [xirrF_eq, xirrDF_eq]; exact hstep)]
    rw [xirrF_eq, xirrDF_eq]

/-- Witness for C4 at a concrete input: two events a year apart with a sign
change, under a concrete power function. -/
theorem calculate_xirr_newton_witness :
    ((0 : Date) :: [365]).length = ([-1000, 1100] : List ℚ).length ∧
    (∃ data : List (Date × ℚ),
      data.Perm (([0, 365] : List Date).zip ([-1000, 1100] : List ℚ)) ∧
      List.Sorted (fun x y : Date × ℚ => x.1 ≤ y.1) data ∧
      (∀ p ∈ data, (data.head?.map Prod.fst).getD 0 ≤ p.1) ∧
      calculate_xirr (fun _ _ => 1) [0, 365] [-1000, 1100] (1/10) =
        xirrGo (fun _ _ => 1)
          (data.map (fun p =>
            ((p.1 - (data.head?.map Prod.fst).getD 0 : ℤ) : ℚ) / (1461/4)))
          (data.map Prod.snd) 100 (1/10) ∧
      (∀ (years amts : List ℚ) (r : ℚ), xirrGo (fun _ _ => 1) years amts 0 r = r) ∧
      (∀ (years amts : List ℚ) (n : Nat) (r : ℚ),
        |((years.zip amts).map
            (fun p => p.2 * (fun _ _ => (1:ℚ)) (1 + clampRate r) (-p.1))).sum| < 1/1000000 →
        xirrGo (fun _ _ => 1) years amts (n+1) r = clampRate r) ∧
      (∀ (years amts : List ℚ) (n : Nat) (r : ℚ),
        ¬ |((years.zip amts).map
            (fun p => p.2 * (fun _ _ => (1:ℚ)) (1 + clampRate r) (-p.1))).sum| < 1/1000000 →
        ¬ |((years.zip amts).map
            (fun p => p.2 * (-p.1) * (fun _ _ => (1:ℚ)) (1 + clampRate r) (-p.1) / (1 + clampRate r))).sum|
              < 1/1000000000 →
        ¬ |(clampRate r -
              ((years.zip amts).map
                (fun p => p.2 * (fun _ _ => (1:ℚ)) (1 + clampRate r) (-p.1))).sum /
              ((years.zip amts).map
                (fun p => p.2 * (-p.1) * (fun _ _ => (1:ℚ)) (1 + clampRate r) (-p.1) / (1 + clampRate r))).sum)
            - clampRate r| < 1/1000000 →
        xirrGo (fun _ _ => 1) years amts (n+1) r =
          xirrGo (fun _ _ => 1) years amts n
            (clampRate r -
              ((years.zip amts).map
                (fun p => p.2 * (fun _ _ => (1:ℚ)) (1 + clampRate r) (-p.1))).sum /
              ((years.zip amts).map
                (fun p => p.2 * (-p.1) * (fun _ _ => (1:ℚ)) (1 + clampRate r) (-p.1) / (1 + clampRate r))).sum))) :=
  ⟨rfl, calculate_xirr_newton (fun _ _ => 1) [0, 365] [-1000, 1100] (1/10) rfl
    (by decide) ⟨1100, by decide, by norm_num⟩ ⟨-1000, by decide, by norm_num⟩⟩

/-! ## Data model (`src/models.rs`) and HoldingsSimulator
(`src/background_processor.rs`, lines 152-188) -/

/-- `models::TradingRecord`. `trade_date_time` and `settlement_date` are
second-resolution timestamps (`NaiveDateTime`). -/
structure TradingRecord where
  security_isin : String
  transaction_type : String
  quantity : ℚ
  share_price : ℚ
  total_trade_value : ℚ
  trade_date_time : Int
  settlement_date : Int
  broker : String
  account_type : String
  ticker : Option String

/-- `models::CashRecord` (fields the engine reads). -/
structure CashRecord where
  date : Date
  activity : String
  net_flow : ℚ

/-- `NaiveDateTime::date()`: the (floor) day of a second-resolution
timestamp. -/
def tradeDate (t : TradingRecord) : Date := Int.ediv t.trade_date_time 86400

/-- Case-insensitive substring test on a transaction type
(`t.transaction_type.to_uppercase().contains(nd)` — `nd` is one of the
upper-case literals of the source). -/
def typeHas (ty : String) (nd : String) : Bool := hasInfix (upperStr ty) nd.data

/-- Pointwise update of a holdings map (`HashMap` entry write). -/
def mapUpdate (h : String → ℚ) (k : String) (v : ℚ) : String → ℚ :=
  fun x => if x = k then v else h x

/-- Applying one trade to the running holdings map (the body of the
`while trade_idx < ...` loop). -/
def applyTrade (h : String → ℚ) (t : TradingRecord) : String → ℚ :=
  match t.ticker with
  | none => h
  | some tk =>
    if typeHas t.transaction_type "BUY" || typeHas t.transaction_type "DIVIDEND REINVESTMENT" then
      mapUpdate h tk (h tk + t.quantity)
    else if typeHas t.transaction_type "SELL" then
      mapUpdate h tk (h tk - t.quantity)
    else h

/-- The signed holdings effect of a trade on one ticker. -/
def tradeDelta (t : TradingRecord) (tk : String) : ℚ :=
  match t.ticker with
  | none => 0
  | some tk' =>
    if tk' = tk then
      if typeHas t.transaction_type "BUY" || typeHas t.transaction_type "DIVIDEND REINVESTMENT" then
        t.quantity
      else if typeHas t.transaction_type "SELL" then -t.quantity
      else 0
    else 0

/-- The date-grid replay loop: for each grid date in order, consume (with a
single forward pointer, i.e. a `takeWhile`/`dropWhile` split) all
not-yet-applied trades whose trade date is `≤` the grid date, and snapshot
the holdings map. -/
def simulateHoldings :
    List TradingRecord → List Date → (String → ℚ) → List (Date × (String → ℚ))
  | _, [], _ => []
  | trades, d :: rest, h =>
    let applied := trades.takeWhile (fun t => decide (tradeDate t ≤ d))
    let remaining := trades.dropWhile (fun t => decide (tradeDate t ≤ d))
    let h2 := applied.foldl applyTrade h
    (d, h2) :: simulateHoldings remaining rest h2

instance instIsTotalTsLe :
    IsTotal TradingRecord (fun a b => a.trade_date_time ≤ b.trade_date_time) :=
  ⟨fun a b => le_total a.trade_date_time b.trade_date_time⟩

instance instIsTransTsLe :
    IsTrans TradingRecord (fun a b => a.trade_date_time ≤ b.trade_date_time) :=
  ⟨fun _ _ _ hab hbc => le_trans hab hbc⟩

/-- The holdings replay of `precompute_portfolio_data`: sort the trades by
timestamp (`sorted_trades.sort_by_key`), start from empty holdings, replay
over the grid. -/
def holdingsSeries (trades : List TradingRecord) (dates : List Date) :
    List (Date × (String → ℚ)) :=
  simulateHoldings
    (List.insertionSort (fun a b : TradingRecord => a.trade_date_time ≤ b.trade_date_time) trades)
    dates (fun _ => 0)

theorem applyTrade_apply (h : String → ℚ) (t : TradingRecord) (x : String) :
    applyTrade h t x = h x + tradeDelta t x := by
  cases ht : t.ticker with
  | none => simp [applyTrade, tradeDelta, ht]
  | some tk =>
    simp only [applyTrade, tradeDelta, ht]
    by_cases hb : (typeHas t.transaction_type "BUY" ||
        typeHas t.transaction_type "DIVIDEND REINVESTMENT") = true
    · rw [if_pos hb, if_pos hb]
      unfold mapUpdate
      by_cases hx : x = tk
      · rw [if_pos hx, if_pos (by rw [hx]), hx]
      · rw [if_neg hx, if_neg (fun hh => hx hh.symm)]
        ring
    · rw [if_neg hb, if_neg hb]
      by_cases hs : typeHas t.transaction_type "SELL" = true
      · rw [if_pos hs, if_pos hs]
        unfold mapUpdate
        by_cases hx : x = tk
        · rw [if_pos hx, if_pos (by rw [hx]), hx]
          ring
        · rw [if_neg hx, if_neg (fun hh => hx hh.symm)]
          ring
      · rw [if_neg hs, if_neg hs]
        by_cases hx : tk = x
        · rw [if_pos hx]
          ring
        · rw [if_neg hx]
          ring

theorem foldl_applyTrade (l : List TradingRecord) :
    ∀ (h : String → ℚ) (x : String),
      (l.foldl applyTrade h) x = h x + (l.map (fun t => tradeDelta t x)).sum := by
  induction l with
  | nil => intro h x; simp
  | cons t ts ih =>
    intro h x
    simp only [List.foldl_cons, List.map_cons, List.sum_cons, ih, applyTrade_apply]
    ring

theorem takeWhile_eq_filter_of_sorted {trades : List TradingRecord} {d : Date}
    (hs : List.Pairwise (fun a b => tradeDate a ≤ tradeDate b) trades) :
    trades.takeWhile (fun t => decide (tradeDate t ≤ d)) =
      trades.filter (fun t => decide (tradeDate t ≤ d)) := by
  induction trades with
  | nil => rfl
  | cons t ts ih =>
    rw [List.pairwise_cons] at hs
    by_cases ht : tradeDate t ≤ d
    · rw [List.takeWhile_cons, List.filter_cons, if_pos (by simpa using ht)]
      simp only [decide_eq_true_eq] at *
      rw [if_pos ht]
      rw [ih hs.2]
    · rw [List.takeWhile_cons, List.filter_cons]
      rw [if_neg (by simpa using ht), if_neg (by simpa using ht)]
      have : ts.filter (fun t => decide (tradeDate t ≤ d)) = [] := by
        rw [List.filter_eq_nil_iff]
        intro u hu
        simp only [decide_eq_true_eq]
        intro hud
        exact ht (le_trans (hs.1 u hu) hud)
      rw [this]

theorem simulateHoldings_fst :
    ∀ (trades : List TradingRecord) (dates : List Date) (h : String → ℚ)
      (p : Date × (String → ℚ)), p ∈ simulateHoldings trades dates h → p.1 ∈ dates := by
  intro trades dates
  induction dates generalizing trades with
  | nil => intro h p hp; cases hp
  | cons d rest ih =>
    intro h p hp
    rw [simulateHoldings] at hp
    rcases List.mem_cons.mp hp with h1 | h1
    · rw [h1]; exact List.mem_cons_self _ _
    · exact List.mem_cons_of_mem _ (ih _ _ _ h1)

theorem simulateHoldings_spec :
    ∀ (trades : List TradingRecord) (dates : List Date) (h0 : String → ℚ),
      List.Pairwise (fun a b => tradeDate a ≤ tradeDate b) trades →
      List.Sorted (· ≤ ·) dates →
      ∀ p ∈ simulateHoldings trades dates h0, ∀ tk : String,
        p.2 tk = h0 tk +
          ((trades.filter (fun t => decide (tradeDate t ≤ p.1))).map
            (fun t => tradeDelta t tk)).sum := by
  intro trades dates
  induction dates generalizing trades with
  | nil => intro h0 _ _ p hp; cases hp
  | cons d rest ih =>
    intro h0 htr hdates p hp tk
    rw [simulateHoldings] at hp
    rw [List.sorted_cons] at hdates
    rcases List.mem_cons.mp hp with h1 | h1
    · rw [h1]
      simp only []
      rw [foldl_applyTrade, takeWhile_eq_filter_of_sorted htr]
    · have hrem : List.Pairwise (fun a b => tradeDate a ≤ tradeDate b)
          (trades.dropWhile (fun t => decide (tradeDate t ≤ d))) :=
        htr.sublist (List.dropWhile_sublist _)
      have := ih _ _ hrem hdates.2 p h1 tk
      rw [this, foldl_applyTrade, takeWhile_eq_filter_of_sorted htr]
      have hd' : d ≤ p.1 := hdates.1 _ (simulateHoldings_fst _ _ _ _ h1)
      have hsplit : trades.filter (fun t => decide (tradeDate t ≤ p.1)) =
          (trades.takeWhile (fun t => decide (tradeDate t ≤ d))).filter
            (fun t => decide (tradeDate t ≤ p.1)) ++
          (trades.dropWhile (fun t => decide (tradeDate t ≤ d))).filter
            (fun t => decide (tradeDate t ≤ p.1)) := by
        rw [← List.filter_append, List.takeWhile_append_dropWhile]
      have happl : (trades.takeWhile (fun t => decide (tradeDate t ≤ d))).filter
          (fun t => decide (tradeDate t ≤ p.1)) =
          trades.takeWhile (fun t => decide (tradeDate t ≤ d)) := by
        rw [List.filter_eq_self]
        intro u hu
        have h1 : tradeDate u ≤ d := by simpa using List.mem_takeWhile_imp hu
        simpa using le_trans h1 hd'
      rw [hsplit, happl, List.map_append, List.sum_append,
        takeWhile_eq_filter_of_sorted htr]
      ring

/-- C5: for an ascending date grid, the replay (which sorts the trades by
timestamp and then uses a single forward pointer) yields, at each grid date,
holdings equal to the sum of the signed effects of all trades with trade date
`≤` that grid date, where BUY / DIVIDEND REINVESTMENT types add the quantity,
SELL types subtract it, and all other types contribute nothing. -/
theorem holdings_replay_spec (trades : List TradingRecord) (dates : List Date)
    (hdates : List.Sorted (· ≤ ·) dates) :
    ∀ p ∈ holdingsSeries trades dates, ∀ tk : String,
      p.2 tk = ((trades.filter (fun t => decide (tradeDate t ≤ p.1))).map
        (fun t => tradeDelta t tk)).sum := by
  intro p hp tk
  have hperm := List.perm_insertionSort
    (fun a b : TradingRecord => a.trade_date_time ≤ b.trade_date_time) trades
  have hsorted := List.sorted_insertionSort
    (fun a b : TradingRecord => a.trade_date_time ≤ b.trade_date_time) trades
  have hpair : List.Pairwise (fun a b => tradeDate a ≤ tradeDate b)
      (List.insertionSort (fun a b : TradingRecord => a.trade_date_time ≤ b.trade_date_time) trades) :=
    hsorted.imp (fun hab => Int.ediv_le_ediv (by omega) hab)
  have := simulateHoldings_spec _ dates (fun _ => 0) hpair hdates p hp tk
  rw [this]
  have hpermsum : List.Perm
      (((List.insertionSort (fun a b : TradingRecord => a.trade_date_time ≤ b.trade_date_time) trades).filter
        (fun t => decide (tradeDate t ≤ p.1))).map (fun t => tradeDelta t tk))
      ((trades.filter (fun t => decide (tradeDate t ≤ p.1))).map (fun t => tradeDelta t tk)) :=
    (hperm.filter _).map _
  rw [hpermsum.sum_eq]
  ring

/-- The two trades of the worked example: Buy 10 on 2024-01-01 (day 0) and
Sell 4 on 2024-01-10 (day 9), with day-number dates relative to 2024-01-01. -/
def exTradesC5 : List TradingRecord :=
  [⟨"IE00EX", "Buy", 10, 10, 100, 0, 0, "IE", "ISA", some "TK"⟩,
   ⟨"IE00EX", "Sell", 4, 10, 40, 9 * 86400, 9 * 86400, "IE", "ISA", some "TK"⟩]

/-- The example grid: 2023-12-31, 2024-01-05, 2024-01-15 (days −1, 4, 14). -/
def exGridC5 : List Date := [-1, 4, 14]

/-- Witness for C5: the grid is ascending, the replay theorem applies, and at
the three grid dates the replayed holdings are 0, 10 and 6. -/
theorem holdings_replay_spec_witness :
    List.Sorted (· ≤ ·) exGridC5 ∧
    (∀ p ∈ holdingsSeries exTradesC5 exGridC5, ∀ tk : String,
      p.2 tk = ((exTradesC5.filter (fun t => decide (tradeDate t ≤ p.1))).map
        (fun t => tradeDelta t tk)).sum) ∧
    (∀ p ∈ holdingsSeries exTradesC5 exGridC5,
      p.2 "TK" = if p.1 = -1 then 0 else if p.1 = 4 then 10 else 6) := by
  have hsorted : List.Sorted (· ≤ ·) exGridC5 := by decide
  have hmain := holdings_replay_spec exTradesC5 exGridC5 hsorted
  refine ⟨hsorted, hmain, ?_⟩
  intro p hp
  have hmem : p.1 ∈ exGridC5 := simulateHoldings_fst _ _ _ _ hp
  rw [hmain p hp "TK"]
  have e1 : (exTradesC5.filter (fun t => decide (tradeDate t ≤ (-1 : Int)))).map
      (fun t => tradeDelta t "TK") = [] := by decide
  have e2 : (exTradesC5.filter (fun t => decide (tradeDate t ≤ (4 : Int)))).map
      (fun t => tradeDelta t "TK") = [10] := by decide
  have e3 : (exTradesC5.filter (fun t => decide (tradeDate t ≤ (14 : Int)))).map
      (fun t => tradeDelta t "TK") = [10, -4] := by decide
  simp only [exGridC5, List.mem_cons, List.not_mem_nil, or_false] at hmem
  rcases hmem with h | h | h
  · rw [h, e1]
    norm_num
  · rw [h, e2]
    norm_num
  · rw [h, e3]
    norm_num

/-! ## PerformanceCalculator: TWR (`src/portfolio_stats.rs`, `calculate_twr`) -/

/-- The `date_to_value` map: `daily_dates.zip(daily_values).collect::<HashMap>()`.
Later inserts win, hence lookup on the reversed association list. -/
def dtvLookup (dd : List Date) (dv : List ℚ) (d : Date) : Option ℚ :=
  lookupKV d (dd.zip dv).reverse

/-- The aggregated external flow recorded on one date
(`cash_flows_by_date` entry, `ZERO` when the date carries no event). -/
def cfAgg (events : List (Date × ℚ)) (d : Date) : ℚ :=
  ((events.filter (fun e => decide (e.1 = d))).map Prod.snd).sum

/-- `Vec::dedup`: remove *consecutive* duplicates. -/
def dedupAdj {α : Type} [DecidableEq α] : List α → List α
  | [] => []
  | [a] => [a]
  | a :: b :: rest => if a = b then dedupAdj (b :: rest) else a :: dedupAdj (b :: rest)

/-- `sorted_dates[0]`: the first valuation date. -/
def startOf (dd : List Date) : Date := (List.insertionSort (· ≤ ·) dd).head?.getD 0

/-- The TWR break-date list: cash-flow dates plus the first valuation date and
the current date, sorted, deduplicated, and restricted to dates with a
recorded value. -/
def periodDates (dd : List Date) (dv : List ℚ) (events : List (Date × ℚ))
    (cur : Date) : List Date :=
  (dedupAdj (List.insertionSort (· ≤ ·)
      ((events.map Prod.fst).dedup ++ [startOf dd, cur]))).filter
    (fun d => (dtvLookup dd dv d).isSome)

/-- `calculate_twr`: chain-linked sub-period returns between break dates,
annualized via `powf`. -/
def calculate_twr (powf : ℚ → ℚ → ℚ) (daily_dates : List Date)
    (daily_values : List ℚ) (cash_flow_events : List (Date × ℚ))
    (current_date : Date) : ℚ :=
  if daily_dates.isEmpty ∨ daily_values.isEmpty ∨
      daily_dates.length ≠ daily_values.length then 0
  else if (List.insertionSort (· ≤ ·) daily_dates).length < 2 then 0
  else
    let start_date := startOf daily_dates
    let period_dates := periodDates daily_dates daily_values cash_flow_events current_date
    if period_dates.length < 2 then 0
    else
      let twr := (period_dates.zip period_dates.tail).foldl (fun acc pe =>
        let start_val := (dtvLookup daily_dates daily_values pe.1).getD 0
        if start_val = 0 then acc
        else
          let end_val := (dtvLookup daily_dates daily_values pe.2).getD 0
          let cash_flow_at_end := cfAgg cash_flow_events pe.2
          acc * (1 + ((end_val - cash_flow_at_end) / start_val - 1))) 1
      let twr1 := twr - 1
      let days : ℚ := ((current_date - start_date : ℤ) : ℚ)
      if days ≤ 0 ∨ (1 + twr1) ≤ 0 then 0
      else powf (1 + twr1) ((1461/4) / days) - 1

theorem lookupKV_isSome_iff {κ β : Type} [DecidableEq κ] {k : κ} :
    ∀ {l : List (κ × β)}, (lookupKV k l).isSome ↔ k ∈ l.map Prod.fst := by
  intro l
  induction l with
  | nil => simp [lookupKV]
  | cons p rest ih =>
    by_cases hp : p.1 = k
    · simp [lookupKV, hp]
    · simp only [lookupKV, if_neg hp, List.map_cons, List.mem_cons, ih]
      constructor
      · intro h; exact Or.inr h
      · rintro (h | h)
        · exact absurd h.symm hp
        · exact h

theorem dedupAdj_mem {α : Type} [DecidableEq α] {a : α} :
    ∀ {l : List α}, a ∈ dedupAdj l ↔ a ∈ l := by
  intro l
  induction l with
  | nil => simp [dedupAdj]
  | cons x rest ih =>
    cases rest with
    | nil => simp [dedupAdj]
    | cons y rest2 =>
      by_cases hxy : x = y
      · rw [dedupAdj, if_pos hxy]
        rw [ih]
        subst hxy
        simp
      · rw [dedupAdj, if_neg hxy]
        simp only [List.mem_cons] at *
        rw [ih]

theorem dedupAdj_sorted_lt :
    ∀ {l : List Date}, List.Sorted (· ≤ ·) l → List.Sorted (· < ·) (dedupAdj l) := by
  intro l
  induction l with
  | nil => intro _; simp [dedupAdj]
  | cons x rest ih =>
    intro hs
    cases rest with
    | nil => simp [dedupAdj]
    | cons y rest2 =>
      rw [List.sorted_cons] at hs
      by_cases hxy : x = y
      · rw [dedupAdj, if_pos hxy]
        exact ih hs.2
      · rw [dedupAdj, if_neg hxy]
        rw [List.sorted_cons]
        refine ⟨?_, ih hs.2⟩
        intro b hb
        have hbmem : b ∈ y :: rest2 := dedupAdj_mem.mp hb
        have hxb : x ≤ b := hs.1 b hbmem
        rcases List.mem_cons.mp hbmem with h | h
        · subst h
          exact lt_of_le_of_ne hxb hxy
        · have hyb : y ≤ b := (List.sorted_cons.mp hs.2).1 b h
          have hxy2 : x < y := lt_of_le_of_ne (hs.1 y (List.mem_cons_self _ _)) hxy
          exact lt_of_lt_of_le hxy2 hyb

theorem foldl_twr_prod (dd : List Date) (dv : List ℚ) (events : List (Date × ℚ)) :
    ∀ (l : List (Date × Date)) (a : ℚ),
      l.foldl (fun acc pe =>
        let start_val := (dtvLookup dd dv pe.1).getD 0
        if start_val = 0 then acc
        else
          let end_val := (dtvLookup dd dv pe.2).getD 0
          let cash_flow_at_end := cfAgg events pe.2
          acc * (1 + ((end_val - cash_flow_at_end) / start_val - 1))) a =
      a * (l.map (fun pe =>
        let sv := (dtvLookup dd dv pe.1).getD 0
        if sv = 0 then 1
        else (((dtvLookup dd dv pe.2).getD 0) - cfAgg events pe.2) / sv)).prod := by
  intro l
  induction l with
  | nil => intro a; simp
  | cons pe rest ih =>
    intro a
    simp only [List.foldl_cons, List.map_cons, List.prod_cons]
    by_cases hsv : (dtvLookup dd dv pe.1).getD 0 = 0
    · rw [if_pos hsv, if_pos hsv, ih]
      ring
    · rw [if_neg hsv, if_neg hsv, ih]
      ring

theorem periodDates_sorted (dd : List Date) (dv : List ℚ)
    (events : List (Date × ℚ)) (cur : Date) :
    List.Sorted (· < ·) (periodDates dd dv events cur) :=
  (dedupAdj_sorted_lt (List.sorted_insertionSort _ _)).filter _

theorem periodDates_mem (dd : List Date) (dv : List ℚ) (events : List (Date × ℚ))
    (cur : Date) (d : Date) :
    d ∈ periodDates dd dv events cur ↔
      ((dtvLookup dd dv d).isSome ∧
       (d = startOf dd ∨ d = cur ∨ d ∈ events.map Prod.fst)) := by
  unfold periodDates
  rw [List.mem_filter, dedupAdj_mem, (List.perm_insertionSort _ _).mem_iff]
  simp only [List.mem_append, List.mem_dedup, List.mem_cons, List.not_mem_nil, or_false]
  tauto

theorem dtvLookup_isSome_mem {dd : List Date} {dv : List ℚ} {d : Date}
    (hlen : dd.length = dv.length) :
    (dtvLookup dd dv d).isSome = true → d ∈ dd := by
  intro h
  rw [dtvLookup, lookupKV_isSome_iff] at h
  rw [List.map_reverse, List.mem_reverse, List.map_fst_zip dd dv (by omega)] at h
  exact h

theorem sorted_lt_nodup {l : List Date} (h : List.Sorted (· < ·) l) : l.Nodup :=
  h.imp (fun hab => ne_of_lt hab)

theorem length_le_one_of_all_eq {l : List Date} (hnd : l.Nodup) (d0 : Date)
    (h : ∀ x ∈ l, x = d0) : l.length ≤ 1 := by
  cases l with
  | nil => simp
  | cons a t =>
    cases t with
    | nil => simp
    | cons b t2 =>
      exfalso
      have ha : a = d0 := h a (List.mem_cons_self _ _)
      have hb : b = d0 := h b (List.mem_cons_of_mem _ (List.mem_cons_self _ _))
      rw [List.nodup_cons] at hnd
      exact hnd.1 (by rw [ha, hb]; exact List.mem_cons_self _ _)

/-- C2 (amended): the break dates of `calculate_twr` are exactly the dates
with a recorded value among {first valuation date, current date, every date
carrying at least one external-flow event}; given at least 2 of them, the
result chain-links the sub-period factors `(endValue − flowAtEnd)/startValue`
(skipping sub-periods with zero start value), and annualizes
`Π factors = 1 + TWR` over `365.25/totalDays`, returning 0 for fewer than 2
break dates, non-positive elapsed days, or a non-positive growth factor. -/
theorem calculate_twr_break_spec (powf : ℚ → ℚ → ℚ) (dd : List Date) (dv : List ℚ)
    (events : List (Date × ℚ)) (cur : Date)
    (hne : dd ≠ []) (hlen : dd.length = dv.length) :
    (startOf dd ∈ dd ∧ (∀ e ∈ dd, startOf dd ≤ e)) ∧
    ∃ bds : List Date,
      List.Sorted (· < ·) bds ∧
      (∀ d : Date, d ∈ bds ↔
        ((dtvLookup dd dv d).isSome ∧
         (d = startOf dd ∨ d = cur ∨ d ∈ events.map Prod.fst))) ∧
      calculate_twr powf dd dv events cur =
        (if bds.length < 2 then 0
         else
           if ((cur - startOf dd : ℤ) : ℚ) ≤ 0 ∨
              ((bds.zip bds.tail).map (fun pe =>
                let sv := (dtvLookup dd dv pe.1).getD 0
                if sv = 0 then 1
                else (((dtvLookup dd dv pe.2).getD 0) - cfAgg events pe.2) / sv)).prod ≤ 0
           then 0
           else powf
             (((bds.zip bds.tail).map (fun pe =>
                let sv := (dtvLookup dd dv pe.1).getD 0
                if sv = 0 then 1
                else (((dtvLookup dd dv pe.2).getD 0) - cfAgg events pe.2) / sv)).prod)
             ((1461/4) / ((cur - startOf dd : ℤ) : ℚ)) - 1) := by
  have hsorted := List.sorted_insertionSort (α := Date) (· ≤ ·) dd
  have hperm := List.perm_insertionSort (α := Date) (· ≤ ·) dd
  have hsne : List.insertionSort (α := Date) (· ≤ ·) dd ≠ [] := by
    intro h
    exact hne (List.Perm.eq_nil (h ▸ hperm.symm))
  have hmin : startOf dd ∈ dd ∧ ∀ e ∈ dd, startOf dd ≤ e := by
    cases hs : List.insertionSort (α := Date) (· ≤ ·) dd with
    | nil => exact absurd hs hsne
    | cons a l =>
      have hsa : startOf dd = a := by rw [startOf, hs]; rfl
      rw [hs] at hsorted
      rw [List.sorted_cons] at hsorted
      constructor
      · rw [hsa]
        exact hperm.mem_iff.mp (by rw [hs]; exact List.mem_cons_self _ _)
      · intro e he
        have : e ∈ a :: l := by rw [← hs]; exact hperm.mem_iff.mpr he
        rcases List.mem_cons.mp this with h | h
        · rw [hsa, h]
        · rw [hsa]
          exact hsorted.1 e h
  refine ⟨hmin, periodDates dd dv events cur, periodDates_sorted dd dv events cur,
    periodDates_mem dd dv events cur, ?_⟩
  have hg1 : ¬(dd.isEmpty = true ∨ dv.isEmpty = true ∨ dd.length ≠ dv.length) := by
    simp only [List.isEmpty_iff]
    push_neg
    refine ⟨hne, ?_, hlen⟩
    intro hdv
    apply hne
    apply List.length_eq_zero.mp
    rw [hlen, hdv]
    rfl
  simp only [calculate_twr]
  rw [if_neg hg1]
  by_cases h2 : (List.insertionSort (α := Date) (· ≤ ·) dd).length < 2
  · rw [if_pos h2]
    have hlen1 : dd.length < 2 := by rw [← hperm.length_eq]; exact h2
    obtain ⟨d0, hd0⟩ : ∃ d0, dd = [d0] := by
      cases dd with
      | nil => exact absurd rfl hne
      | cons a t =>
        cases t with
        | nil => exact ⟨a, rfl⟩
        | cons b t2 =>
          exfalso
          simp only [List.length_cons] at hlen1
          omega
    have hble : (periodDates dd dv events cur).length ≤ 1 := by
      refine length_le_one_of_all_eq
        (sorted_lt_nodup (periodDates_sorted dd dv events cur)) d0 ?_
      intro x hx
      have h := ((periodDates_mem dd dv events cur x).mp hx).1
      have hmem := dtvLookup_isSome_mem hlen h
      rw [hd0] at hmem
      simpa using hmem
    rw [if_pos (by omega)]
  · rw [if_neg h2]
    by_cases h3 : (periodDates dd dv events cur).length < 2
    · rw [if_pos h3, if_pos h3]
    · rw [if_neg h3, if_neg h3]
      rw [foldl_twr_prod]
      have hP : ∀ P : ℚ, 1 + (1 * P - 1) = P := by intro P; ring
      rw [hP]

/-- Modelled from the claim's words (C2), for comparison with the code: break
dates = {first valuation date, valuation date, every date with a *nonzero
aggregated* external flow}, restricted to dates with a recorded value; then
exactly the claimed sub-period chaining, annualization and zero guards. -/
def twrClaimedC2 (powf : ℚ → ℚ → ℚ) (dd : List Date) (dv : List ℚ)
    (events : List (Date × ℚ)) (cur : Date) : ℚ :=
  let bds := (dedupAdj (List.insertionSort (· ≤ ·)
      ((((events.map Prod.fst).dedup).filter (fun d => decide (cfAgg events d ≠ 0))) ++
        [startOf dd, cur]))).filter
    (fun d => (dtvLookup dd dv d).isSome)
  if bds.length < 2 then 0
  else
    let F := ((bds.zip bds.tail).map (fun pe =>
      let sv := (dtvLookup dd dv pe.1).getD 0
      if sv = 0 then 1
      else (((dtvLookup dd dv pe.2).getD 0) - cfAgg events pe.2) / sv)).prod
    let days : ℚ := ((cur - startOf dd : ℤ) : ℚ)
    if days ≤ 0 ∨ F ≤ 0 then 0 else powf F ((1461/4) / days) - 1

/-- Counterexample for C2 as stated: daily values 1, 0, 3 on days 0, 1, 2,
a single zero-amount external flow event on day 1, current date day 2.  The
code treats day 1 (aggregated flow 0) as a break date, hits the zero start
value and the zero growth factor, and returns 0; the claimed break-date rule
(nonzero aggregated flow only) skips day 1 and yields a nonzero result. -/
theorem calculate_twr_counterexample :
    calculate_twr (fun _ _ => 9) [0, 1, 2] [1, 0, 3] [(1, 0)] 2 = 0 ∧
    twrClaimedC2 (fun _ _ => 9) [0, 1, 2] [1, 0, 3] [(1, 0)] 2 = 8 := by
  have epd : periodDates [0, 1, 2] [1, 0, 3] [(1, 0)] 2 = [0, 1, 2] := by decide
  constructor
  · simp only [calculate_twr]
    rw [if_neg (by decide), if_neg (by decide), epd]
    rw [if_neg (by decide)]
    rw [foldl_twr_prod]
    have hv0 : dtvLookup [0, 1, 2] [1, 0, 3] 0 = some 1 := by decide
    have hv1 : dtvLookup [0, 1, 2] [1, 0, 3] 1 = some 0 := by decide
    have hv2 : dtvLookup [0, 1, 2] [1, 0, 3] 2 = some 3 := by decide
    have hc1 : cfAgg [((1 : Date), (0 : ℚ))] 1 = 0 := by
      simp only [cfAgg]
      norm_num
    have hc2 : cfAgg [((1 : Date), (0 : ℚ))] 2 = 0 := by
      simp only [cfAgg]
      norm_num
    simp only [List.zip_cons_cons, List.tail_cons, List.zip_nil_right,
      List.map_cons, List.map_nil, List.prod_cons, List.prod_nil,
      hv0, hv1, hv2, hc1, hc2, Option.getD_some]
    norm_num
  · simp only [twrClaimedC2]
    have hkeys : (((([((1 : Date), (0 : ℚ))].map Prod.fst).dedup).filter
        (fun d => decide (cfAgg [((1 : Date), (0 : ℚ))] d ≠ 0)))) = [] := by
      have : cfAgg [((1 : Date), (0 : ℚ))] 1 = 0 := by
        simp only [cfAgg]
        norm_num
      simp [List.filter, this]
    rw [hkeys]
    have hstart : startOf [0, 1, 2] = 0 := by decide
    rw [hstart]
    have hbds : ((dedupAdj (List.insertionSort (α := Date) (· ≤ ·)
        ([] ++ [(0 : Date), 2]))).filter
        (fun d => (dtvLookup [0, 1, 2] [1, 0, 3] d).isSome)) = [0, 2] := by decide
    rw [hbds]
    rw [if_neg (by decide)]
    have hv0 : dtvLookup [0, 1, 2] [1, 0, 3] 0 = some 1 := by decide
    have hv2 : dtvLookup [0, 1, 2] [1, 0, 3] 2 = some 3 := by decide
    have hc2 : cfAgg [((1 : Date), (0 : ℚ))] 2 = 0 := by
      simp only [cfAgg]
      norm_num
    simp only [List.zip_cons_cons, List.tail_cons, List.zip_nil_right,
      List.map_cons, List.map_nil, List.prod_cons, List.prod_nil,
      hv0, hv2, hc2, Option.getD_some]
    norm_num

/-- Witness for the amended C2 at the concrete input of the counterexample
scenario (both hypotheses checked by evaluation). -/
theorem calculate_twr_break_spec_witness :
    (startOf [0, 1, 2] ∈ ([0, 1, 2] : List Date) ∧
      (∀ e ∈ ([0, 1, 2] : List Date), startOf [0, 1, 2] ≤ e)) ∧
    ∃ bds : List Date,
      List.Sorted (· < ·) bds ∧
      (∀ d : Date, d ∈ bds ↔
        ((dtvLookup [0, 1, 2] [1, 0, 3] d).isSome ∧
         (d = startOf [0, 1, 2] ∨ d = 2 ∨ d ∈ ([((1 : Date), (0 : ℚ))].map Prod.fst)))) ∧
      calculate_twr (fun _ _ => 9) [0, 1, 2] [1, 0, 3] [(1, 0)] 2 =
        (if bds.length < 2 then 0
         else
           if ((2 - startOf [0, 1, 2] : ℤ) : ℚ) ≤ 0 ∨
              ((bds.zip bds.tail).map (fun pe =>
                let sv := (dtvLookup [0, 1, 2] [1, 0, 3] pe.1).getD 0
                if sv = 0 then 1
                else (((dtvLookup [0, 1, 2] [1, 0, 3] pe.2).getD 0) -
                  cfAgg [((1 : Date), (0 : ℚ))] pe.2) / sv)).prod ≤ 0
           then 0
           else (fun _ _ => (9 : ℚ))
             (((bds.zip bds.tail).map (fun pe =>
                let sv := (dtvLookup [0, 1, 2] [1, 0, 3] pe.1).getD 0
                if sv = 0 then 1
                else (((dtvLookup [0, 1, 2] [1, 0, 3] pe.2).getD 0) -
                  cfAgg [((1 : Date), (0 : ℚ))] pe.2) / sv)).prod)
             ((1461/4) / ((2 - startOf [0, 1, 2] : ℤ) : ℚ)) - 1) :=
  calculate_twr_break_spec (fun _ _ => 9) [0, 1, 2] [1, 0, 3] [(1, 0)] 2
    (by decide) (by decide)

/-! ## Cash-flow ledger access (`src/database.rs`, `get_external_cash_flows`) -/

/-- The Mongo filter of `get_external_cash_flows`: case-insensitive substring
match of the activity against the three external classes. -/
def matchesExternal (activity : String) : Bool :=
  hasInfix (upperStr activity) "PAYMENT RECEIVED".data ||
  hasInfix (upperStr activity) "WITHDRAWAL".data ||
  hasInfix (upperStr activity) "ISA TRANSFER IN".data

/-- `Database::get_external_cash_flows`: the filtered view of the cash-flow
ledger, sorted by date, projected to (date, net_flow). -/
def get_external_cash_flows (ledger : List CashRecord) : List (Date × ℚ) :=
  (List.insertionSort (fun a b : CashRecord => a.date ≤ b.date)
    (ledger.filter (fun r => matchesExternal r.activity))).map
    (fun r => (r.date, r.net_flow))

/-! ## PrecomputeOrchestrator (`src/background_processor.rs`,
`precompute_portfolio_data`) -/

/-- One persisted `precomputed_ticker_prices` row. -/
structure PriceRow where
  ticker : String
  date : Date
  currency : String
  original : ℚ
  converted : ℚ

/-- One persisted `precomputed_ticker_daily_values` row. -/
structure ValueRow where
  date : Date
  ticker : String
  value : ℚ

/-- The observable outcome of one orchestrator run: the sequence of
`update_precompute_status` calls, the rows written to each derived store
(after the initial `clear_precomputed_data`), and the `Result` success flag. -/
structure RunResult where
  statusTrace : List String
  priceRows : List PriceRow
  tickerDailyRows : List ValueRow
  portfolioRows : List (Date × ℚ)
  monthlyRows : List (String × ℚ)
  ok : Bool

/-- The `HashSet` of tickers named by the trades. -/
def computeTickers (trades : List TradingRecord) : List String :=
  (trades.filterMap (fun t => t.ticker)).dedup

/-- `min_date`: the earliest trade date, further lowered by cash-flow dates
(initialised from `trades[0]`, hence only defined for a non-empty ledger). -/
def computeMinDate (trades : List TradingRecord) (cfs : List (Date × ℚ)) : Date :=
  match trades with
  | [] => 0
  | t0 :: _ =>
    cfs.foldl (fun m c => min m c.1)
      (trades.foldl (fun m t => min m (tradeDate t)) (tradeDate t0))

/-- `min_date.iter_days().take_while(|&d| d <= max_date)`. -/
def dateRange (lo hi : Date) : List Date :=
  (List.range (hi + 1 - lo).toNat).map (fun k => lo + k)

/-- The full computed date grid of a run. -/
def computeDates (trades : List TradingRecord) (cfs : List (Date × ℚ))
    (today : Date) : List Date :=
  dateRange (computeMinDate trades cfs) today

/-- The converted (base-currency) price used for valuation: fallback price,
per-currency FX rate (zero rates discarded), `convert_to_gbp`, and the raw
price as the degradation path on conversion failure. -/
def convPrice (raw : List (String × List (Date × ℚ)))
    (currencies : String → Option String) (ticker : String) (date : Date) : ℚ :=
  let reported := (currencies ticker).getD "GBP"
  let price := get_price_with_fallback raw ticker date
  let fx_rate := (get_fx_ticker reported).bind (fun fx =>
    let r := get_price_with_fallback raw fx date
    if r = 0 then none else some r)
  match convert_to_gbp price reported date fx_rate with
  | Except.ok c => c
  | Except.error _ => price

/-- The `save_precomputed_ticker_price` writes of the price loop for one
ticker: one row per grid date whose fallback price is nonzero. -/
def priceRowsFor (raw : List (String × List (Date × ℚ)))
    (currencies : String → Option String) (ticker : String)
    (dates : List Date) : List PriceRow :=
  dates.filterMap (fun date =>
    let price := get_price_with_fallback raw ticker date
    if price ≠ 0 then
      some ⟨ticker, date, (currencies ticker).getD "GBP", price,
        convPrice raw currencies ticker date⟩
    else none)

/-- The monthly signed notional of one trade (`BUY` adds the total trade
value, `SELL` subtracts it, anything else contributes zero but still creates
the bucket). -/
def tradeMonthDelta (t : TradingRecord) : ℚ :=
  if typeHas t.transaction_type "BUY" then t.total_trade_value
  else if typeHas t.transaction_type "SELL" then -t.total_trade_value
  else 0

/-- `monthly_net.entry(month).or_insert(ZERO); *entry += dv` on an
association list. -/
def bumpKey (l : List (String × ℚ)) (k : String) (dv : ℚ) : List (String × ℚ) :=
  if l.any (fun p => p.1 = k) then
    l.map (fun p => if p.1 = k then (p.1, p.2 + dv) else p)
  else l ++ [(k, dv)]

/-- The monthly-contribution aggregation: trades first (BUY/SELL notionals,
bucket creation for every trade), then the external cash flows. -/
def computeMonthly (monthKey : Date → String) (trades : List TradingRecord)
    (cfs : List (Date × ℚ)) : List (String × ℚ) :=
  cfs.foldl (fun m c => bumpKey m (monthKey c.1) c.2)
    (trades.foldl (fun m t => bumpKey m (monthKey (tradeDate t)) (tradeMonthDelta t)) [])

/-- `precompute_portfolio_data`: set status `in_progress`, load, return
immediately on an empty trade ledger, otherwise clear and rewrite every
derived store and set status `completed`.  `monthKey` abstracts chrono's
`%Y-%m` formatting of a day number; `raw`/`currencies` are the fetched price
history and per-ticker reported currencies (the provider is external). -/
def precompute_portfolio_data (monthKey : Date → String)
    (trades : List TradingRecord) (external_cfs : List (Date × ℚ))
    (raw : List (String × List (Date × ℚ)))
    (currencies : String → Option String) (today : Date) : RunResult :=
  if trades.isEmpty then ⟨["in_progress"], [], [], [], [], true⟩
  else
    let tickers := computeTickers trades
    let dates := computeDates trades external_cfs today
    let priceRows := tickers.flatMap (fun tk => priceRowsFor raw currencies tk dates)
    let series := holdingsSeries trades dates
    let tickerDailyRows := series.flatMap (fun p =>
      tickers.map (fun tk => ValueRow.mk p.1 tk (p.2 tk * convPrice raw currencies tk p.1)))
    let portfolioRows := series.map (fun p =>
      (p.1, (tickers.map (fun tk => p.2 tk * convPrice raw currencies tk p.1)).sum))
    let monthlyRows := computeMonthly monthKey trades external_cfs
    ⟨["in_progress", "completed"], priceRows, tickerDailyRows, portfolioRows,
      monthlyRows, true⟩

/-- Keyed upsert (`update_one` with `upsert(true)` under a unique key). -/
def upsertBy {α κ : Type} [DecidableEq κ] (key : α → κ) (l : List α) (x : α) :
    List α :=
  if l.any (fun y => decide (key y = key x)) then
    l.map (fun y => if key y = key x then x else y)
  else l ++ [x]

/-- The store contents after replaying a list of upsert writes onto the
freshly cleared collection. -/
def persistTable {α κ : Type} [DecidableEq κ] (key : α → κ)
    (writes : List α) : List α :=
  writes.foldl (upsertBy key) []

/-- Number of rows of the table carrying a given key. -/
def countKey {α κ : Type} [DecidableEq κ] (key : α → κ) (l : List α) (k : κ) :
    Nat :=
  (l.filter (fun x => decide (key x = k))).length

theorem countKey_nil {α κ : Type} [DecidableEq κ] (key : α → κ) (k : κ) :
    countKey key ([] : List α) k = 0 := rfl

theorem countKey_eq_zero_iff {α κ : Type} [DecidableEq κ] {key : α → κ}
    {l : List α} {k : κ} : countKey key l k = 0 ↔ ∀ y ∈ l, key y ≠ k := by
  rw [countKey, List.length_eq_zero, List.filter_eq_nil_iff]
  simp

theorem countKey_map_replace {α κ : Type} [DecidableEq κ] (key : α → κ)
    (l : List α) (x : α) (k : κ) :
    countKey key (l.map (fun y => if key y = key x then x else y)) k =
      countKey key l k := by
  induction l with
  | nil => rfl
  | cons y ys ih =>
    simp only [List.map_cons, countKey, List.filter_cons] at *
    by_cases hy : key y = key x
    · rw [if_pos hy]
      by_cases hk : key x = k
      · rw [if_pos (by simpa using hk), if_pos (by simp [hy, hk])]
        simpa [countKey] using ih
      · rw [if_neg (by simpa using hk), if_neg (by simp [hy, hk])]
        simpa [countKey] using ih
    · rw [if_neg hy]
      by_cases hk : key y = k
      · rw [if_pos (by simpa using hk), if_pos (by simpa using hk)]
        simpa [countKey] using ih
      · rw [if_neg (by simpa using hk), if_neg (by simpa using hk)]
        simpa [countKey] using ih

theorem countKey_upsertBy {α κ : Type} [DecidableEq κ] (key : α → κ)
    (l : List α) (x : α) (k : κ) (hinv : ∀ k0, countKey key l k0 ≤ 1) :
    countKey key (upsertBy key l x) k = if k = key x then 1 else countKey key l k := by
  unfold upsertBy
  by_cases hany : l.any (fun y => decide (key y = key x)) = true
  · rw [if_pos hany, countKey_map_replace]
    by_cases hk : k = key x
    · rw [if_pos hk]
      have hpos : countKey key l k ≠ 0 := by
        intro h0
        rw [countKey_eq_zero_iff] at h0
        rw [List.any_eq_true] at hany
        obtain ⟨y, hy, hky⟩ := hany
        exact h0 y hy (by rw [hk]; simpa using hky)
      have h1 := hinv k
      omega
    · rw [if_neg hk]
  · rw [if_neg hany]
    rw [countKey, List.filter_append, List.length_append]
    by_cases hk : k = key x
    · rw [if_pos hk]
      have h0 : (l.filter (fun y => decide (key y = k))).length = 0 := by
        have : countKey key l k = 0 := by
          rw [countKey_eq_zero_iff]
          intro y hy hky
          rw [List.any_eq_true] at hany
          exact hany ⟨y, hy, by simp [hky, ← hk]⟩
        rw [countKey] at this
        exact this
      rw [h0]
      have h1 : ([x].filter (fun y => decide (key y = k))).length = 1 := by
        simp only [List.filter_cons, List.filter_nil]
        rw [if_pos (by simp [hk])]
        rfl
      rw [h1]
    · rw [if_neg hk]
      have h1 : ([x].filter (fun y => decide (key y = k))).length = 0 := by
        simp only [List.filter_cons, List.filter_nil]
        rw [if_neg (by simp; exact fun h => hk h.symm)]
        rfl
      rw [h1, countKey]
      omega

theorem countKey_upsertBy_le {α κ : Type} [DecidableEq κ] (key : α → κ)
    (l : List α) (x : α) (hinv : ∀ k0, countKey key l k0 ≤ 1) :
    ∀ k, countKey key (upsertBy key l x) k ≤ 1 := by
  intro k
  rw [countKey_upsertBy key l x k hinv]
  by_cases hk : k = key x
  · rw [if_pos hk]
  · rw [if_neg hk]
    exact hinv k

theorem persistTable_aux {α κ : Type} [DecidableEq κ] (key : α → κ) :
    ∀ (writes : List α) (init : List α), (∀ k0, countKey key init k0 ≤ 1) →
      ∀ k, countKey key (writes.foldl (upsertBy key) init) k =
        if writes.any (fun x => decide (key x = k)) then 1 else countKey key init k := by
  intro writes
  induction writes with
  | nil =>
    intro init _ k
    simp
  | cons x xs ih =>
    intro init hinv k
    rw [List.foldl_cons]
    rw [ih (upsertBy key init x) (countKey_upsertBy_le key init x hinv) k]
    rw [List.any_cons]
    by_cases hxs : xs.any (fun y => decide (key y = k)) = true
    · rw [if_pos hxs, if_pos (by simp [hxs])]
    · rw [if_neg hxs]
      rw [countKey_upsertBy key init x k hinv]
      by_cases hx : key x = k
      · rw [if_pos hx.symm, if_pos (by simp [hx])]
      · rw [if_neg (fun h => hx h.symm), if_neg (by simp [hxs, hx])]

/-- After replaying keyed upserts onto a cleared store, a key has exactly one
row iff some write carried it, and zero rows otherwise. -/
theorem persistTable_countKey {α κ : Type} [DecidableEq κ] (key : α → κ)
    (writes : List α) (k : κ) :
    countKey key (persistTable key writes) k =
      if writes.any (fun x => decide (key x = k)) then 1 else 0 := by
  rw [persistTable, persistTable_aux key writes [] (by intro k0; rw [countKey_nil]; omega) k,
    countKey_nil]

theorem simulateHoldings_map_fst :
    ∀ (trades : List TradingRecord) (dates : List Date) (h : String → ℚ),
      (simulateHoldings trades dates h).map Prod.fst = dates := by
  intro trades dates
  induction dates generalizing trades with
  | nil => intro h; rfl
  | cons d rest ih =>
    intro h
    rw [simulateHoldings]
    simp only [List.map_cons]
    rw [ih]

theorem run_not_empty_guard {trades : List TradingRecord} (hne : trades ≠ []) :
    ¬(trades.isEmpty = true) := by
  cases trades with
  | nil => exact absurd rfl hne
  | cons a t => simp

theorem run_tickerDailyRows (monthKey : Date → String)
    (trades : List TradingRecord) (external_cfs : List (Date × ℚ))
    (raw : List (String × List (Date × ℚ))) (currencies : String → Option String)
    (today : Date) (hne : trades ≠ []) :
    (precompute_portfolio_data monthKey trades external_cfs raw currencies today).tickerDailyRows =
      (holdingsSeries trades (computeDates trades external_cfs today)).flatMap (fun p =>
        (computeTickers trades).map (fun tk =>
          ValueRow.mk p.1 tk (p.2 tk * convPrice raw currencies tk p.1))) := by
  unfold precompute_portfolio_data
  rw [if_neg (run_not_empty_guard hne)]

theorem run_priceRows (monthKey : Date → String)
    (trades : List TradingRecord) (external_cfs : List (Date × ℚ))
    (raw : List (String × List (Date × ℚ))) (currencies : String → Option String)
    (today : Date) (hne : trades ≠ []) :
    (precompute_portfolio_data monthKey trades external_cfs raw currencies today).priceRows =
      (computeTickers trades).flatMap (fun tk =>
        priceRowsFor raw currencies tk (computeDates trades external_cfs today)) := by
  unfold precompute_portfolio_data
  rw [if_neg (run_not_empty_guard hne)]

theorem holdingsSeries_map_fst (trades : List TradingRecord) (dates : List Date) :
    (holdingsSeries trades dates).map Prod.fst = dates := by
  rw [holdingsSeries, simulateHoldings_map_fst]

/-- C7: after a successful run on a non-empty trade ledger, the persisted
per-ticker daily-value table holds exactly one row for every (date, ticker)
pair of the full grid × known tickers — zero-valued rows included — and no
other rows. -/
theorem ticker_daily_rows_rectangular (monthKey : Date → String)
    (trades : List TradingRecord) (external_cfs : List (Date × ℚ))
    (raw : List (String × List (Date × ℚ))) (currencies : String → Option String)
    (today : Date) (hne : trades ≠ []) :
    ∀ (d : Date) (tk : String),
      countKey (fun r : ValueRow => (r.date, r.ticker))
        (persistTable (fun r : ValueRow => (r.date, r.ticker))
          (precompute_portfolio_data monthKey trades external_cfs raw currencies
            today).tickerDailyRows)
        (d, tk) =
      if d ∈ computeDates trades external_cfs today ∧ tk ∈ computeTickers trades
      then 1 else 0 := by
  intro d tk
  rw [persistTable_countKey, run_tickerDailyRows monthKey trades external_cfs raw
    currencies today hne]
  by_cases hcond : d ∈ computeDates trades external_cfs today ∧ tk ∈ computeTickers trades
  · rw [if_pos hcond, if_pos]
    rw [List.any_eq_true]
    have hd : d ∈ (holdingsSeries trades (computeDates trades external_cfs today)).map
        Prod.fst := by
      rw [holdingsSeries_map_fst]
      exact hcond.1
    obtain ⟨p, hp, hpd⟩ := List.mem_map.mp hd
    refine ⟨ValueRow.mk p.1 tk (p.2 tk * convPrice raw currencies tk p.1),
      List.mem_flatMap.mpr ⟨p, hp, List.mem_map.mpr ⟨tk, hcond.2, rfl⟩⟩, ?_⟩
    simp [hpd]
  · rw [if_neg hcond, if_neg]
    intro hany
    rw [List.any_eq_true] at hany
    obtain ⟨r, hr, hkey⟩ := hany
    obtain ⟨p, hp, hrmem⟩ := List.mem_flatMap.mp hr
    obtain ⟨tk0, htk0, hre⟩ := List.mem_map.mp hrmem
    apply hcond
    rw [← hre] at hkey
    simp only [decide_eq_true_eq, Prod.mk.injEq] at hkey
    constructor
    · rw [← hkey.1]
      have : p.1 ∈ (holdingsSeries trades (computeDates trades external_cfs today)).map
          Prod.fst := List.mem_map.mpr ⟨p, hp, rfl⟩
      rw [holdingsSeries_map_fst] at this
      exact this
    · rw [← hkey.2]
      exact htk0

/-- Witness for C7 at a concrete run and a concrete key: one trade, so one
known ticker, a two-day grid, and the pair (day 0, "TK"). -/
theorem ticker_daily_rows_rectangular_witness :
    countKey (fun r : ValueRow => (r.date, r.ticker))
      (persistTable (fun r : ValueRow => (r.date, r.ticker))
        (precompute_portfolio_data (fun _ => "m")
          [⟨"IS", "Buy", 1, 1, 1, 0, 0, "b", "a", some "TK"⟩] [] [] (fun _ => none)
          1).tickerDailyRows)
      (0, "TK") =
    if (0 : Date) ∈ computeDates [⟨"IS", "Buy", 1, 1, 1, 0, 0, "b", "a", some "TK"⟩] [] 1 ∧
       "TK" ∈ computeTickers [⟨"IS", "Buy", 1, 1, 1, 0, 0, "b", "a", some "TK"⟩]
    then 1 else 0 :=
  ticker_daily_rows_rectangular (fun _ => "m")
    [⟨"IS", "Buy", 1, 1, 1, 0, 0, "b", "a", some "TK"⟩] [] [] (fun _ => none) 1
    (List.cons_ne_nil _ _) 0 "TK"

/-- C10: a (ticker, date) price row is persisted iff the ticker is known, the
date lies on the computed grid, and the fallback-resolved raw price there is
nonzero; the persisted price table is otherwise empty at that key. -/
theorem ticker_price_rows_sparse (monthKey : Date → String)
    (trades : List TradingRecord) (external_cfs : List (Date × ℚ))
    (raw : List (String × List (Date × ℚ))) (currencies : String → Option String)
    (today : Date) :
    ∀ (tk : String) (d : Date),
      countKey (fun r : PriceRow => (r.ticker, r.date))
        (persistTable (fun r : PriceRow => (r.ticker, r.date))
          (precompute_portfolio_data monthKey trades external_cfs raw currencies
            today).priceRows)
        (tk, d) =
      if tk ∈ computeTickers trades ∧ d ∈ computeDates trades external_cfs today ∧
         get_price_with_fallback raw tk d ≠ 0
      then 1 else 0 := by
  intro tk d
  rw [persistTable_countKey]
  by_cases hne : trades = []
  · subst hne
    have hrows : (precompute_portfolio_data monthKey [] external_cfs raw currencies
        today).priceRows = [] := rfl
    rw [hrows]
    have h1 : ¬((([] : List PriceRow).any
        (fun x => decide ((fun r : PriceRow => (r.ticker, r.date)) x = (tk, d)))) = true) := by
      simp
    rw [if_neg h1, if_neg]
    rintro ⟨hmem, _, _⟩
    simp [computeTickers] at hmem
  · rw [run_priceRows monthKey trades external_cfs raw currencies today hne]
    by_cases hcond : tk ∈ computeTickers trades ∧
        d ∈ computeDates trades external_cfs today ∧
        get_price_with_fallback raw tk d ≠ 0
    · rw [if_pos hcond, if_pos]
      rw [List.any_eq_true]
      refine ⟨⟨tk, d, (currencies tk).getD "GBP", get_price_with_fallback raw tk d,
        convPrice raw currencies tk d⟩,
        List.mem_flatMap.mpr ⟨tk, hcond.1, ?_⟩, by simp⟩
      rw [priceRowsFor, List.mem_filterMap]
      refine ⟨d, hcond.2.1, ?_⟩
      simp only []
      rw [if_pos (by simpa using hcond.2.2)]
    · rw [if_neg hcond, if_neg]
      intro hany
      rw [List.any_eq_true] at hany
      obtain ⟨r, hr, hkey⟩ := hany
      obtain ⟨tk0, htk0, hrmem⟩ := List.mem_flatMap.mp hr
      rw [priceRowsFor, List.mem_filterMap] at hrmem
      obtain ⟨d0, hd0, hsome⟩ := hrmem
      simp only [] at hsome
      by_cases hz : get_price_with_fallback raw tk0 d0 ≠ 0
      · rw [if_pos (by simpa using hz)] at hsome
        apply hcond
        cases hsome
        simp only [decide_eq_true_eq, Prod.mk.injEq] at hkey
        rw [← hkey.1, ← hkey.2]
        exact ⟨htk0, hd0, hz⟩
      · rw [if_neg (by simpa using hz)] at hsome
        cases hsome

/-- C8: a run started on an empty trade ledger records exactly one status
transition — to `in_progress` — and then returns successfully; the run never
reaches `completed` or `failed`. -/
theorem empty_ledger_run_status (monthKey : Date → String)
    (trades : List TradingRecord) (external_cfs : List (Date × ℚ))
    (raw : List (String × List (Date × ℚ))) (currencies : String → Option String)
    (today : Date) (h : trades = []) :
    (precompute_portfolio_data monthKey trades external_cfs raw currencies
      today).statusTrace = ["in_progress"] ∧
    (precompute_portfolio_data monthKey trades external_cfs raw currencies
      today).ok = true ∧
    "completed" ∉ (precompute_portfolio_data monthKey trades external_cfs raw
      currencies today).statusTrace ∧
    "failed" ∉ (precompute_portfolio_data monthKey trades external_cfs raw
      currencies today).statusTrace := by
  subst h
  refine ⟨rfl, rfl, ?_, ?_⟩ <;>
    · show _ ∉ (["in_progress"] : List String)
      decide

/-- Witness for C8 at a fully concrete empty-ledger run. -/
theorem empty_ledger_run_status_witness :
    (precompute_portfolio_data (fun _ => "m") [] [] [] (fun _ => none)
      0).statusTrace = ["in_progress"] ∧
    (precompute_portfolio_data (fun _ => "m") [] [] [] (fun _ => none) 0).ok = true ∧
    "completed" ∉ (precompute_portfolio_data (fun _ => "m") [] [] [] (fun _ => none)
      0).statusTrace ∧
    "failed" ∉ (precompute_portfolio_data (fun _ => "m") [] [] [] (fun _ => none)
      0).statusTrace :=
  empty_ledger_run_status (fun _ => "m") [] [] [] (fun _ => none) 0 rfl

/-! ## Monthly contribution bucketing (C9) -/

theorem lookupKV_append {κ β : Type} [DecidableEq κ] (k : κ) (l1 l2 : List (κ × β)) :
    lookupKV k (l1 ++ l2) =
      match lookupKV k l1 with
      | some v => some v
      | none => lookupKV k l2 := by
  induction l1 with
  | nil => rfl
  | cons p rest ih =>
    by_cases hp : p.1 = k
    · simp [lookupKV, hp]
    · simp only [List.cons_append, lookupKV, if_neg hp]
      exact ih

theorem lookupKV_map_bump (l : List (String × ℚ)) (k0 : String) (dv : ℚ)
    (m : String) :
    lookupKV m (l.map (fun p => if p.1 = k0 then (p.1, p.2 + dv) else p)) =
      if m = k0 then (lookupKV m l).map (fun v => v + dv) else lookupKV m l := by
  induction l with
  | nil =>
    by_cases hm : m = k0 <;> simp [lookupKV, hm]
  | cons p rest ih =>
    by_cases hp : p.1 = k0
    · by_cases hpm : p.1 = m
      · have hm : m = k0 := by rw [← hpm, hp]
        simp only [List.map_cons, if_pos hp, lookupKV, if_pos hpm, if_pos hm]
        rfl
      · simp only [List.map_cons, if_pos hp, lookupKV, if_neg hpm]
        exact ih
    · by_cases hpm : p.1 = m
      · have hm : ¬(m = k0) := fun h => hp (by rw [hpm, h])
        simp only [List.map_cons, if_neg hp, lookupKV, if_pos hpm, if_neg hm]
      · simp only [List.map_cons, if_neg hp, lookupKV, if_neg hpm]
        exact ih

theorem lookupKV_bumpKey (l : List (String × ℚ)) (k0 : String) (dv : ℚ)
    (m : String) :
    lookupKV m (bumpKey l k0 dv) =
      if m = k0 then some ((lookupKV m l).getD 0 + dv) else lookupKV m l := by
  unfold bumpKey
  by_cases hany : l.any (fun p => decide (p.1 = k0)) = true
  · rw [if_pos hany, lookupKV_map_bump]
    by_cases hm : m = k0
    · rw [if_pos hm, if_pos hm]
      have hsome : (lookupKV m l).isSome = true := by
        rw [lookupKV_isSome_iff]
        rw [List.any_eq_true] at hany
        obtain ⟨p, hp, hpk⟩ := hany
        refine List.mem_map.mpr ⟨p, hp, ?_⟩
        rw [hm]
        simpa using hpk
      cases hl : lookupKV m l with
      | none => rw [hl] at hsome; cases hsome
      | some v => rfl
    · rw [if_neg hm, if_neg hm]
  · rw [if_neg hany, lookupKV_append]
    by_cases hm : m = k0
    · rw [if_pos hm]
      have hnone : lookupKV m l = none := by
        cases hl : lookupKV m l with
        | none => rfl
        | some v =>
          exfalso
          have hmem : m ∈ l.map Prod.fst := lookupKV_isSome_iff.mp (by rw [hl]; rfl)
          obtain ⟨p, hp, hpm⟩ := List.mem_map.mp hmem
          rw [List.any_eq_true] at hany
          exact hany ⟨p, hp, by simp [hpm, hm]⟩
      rw [hnone]
      simp [lookupKV, hm]
    · rw [if_neg hm]
      cases hl : lookupKV m l with
      | none =>
        simp only [hl, lookupKV]
        exact if_neg (fun hh => hm hh.symm)
      | some v => rfl

theorem lookupKV_bump_fold {α : Type} (key : α → String) (val : α → ℚ) :
    ∀ (items : List α) (init : List (String × ℚ)) (m : String),
      lookupKV m (items.foldl (fun acc x => bumpKey acc (key x) (val x)) init) =
        if (items.any (fun x => decide (key x = m)) = true) ∨
           ((lookupKV m init).isSome = true)
        then some ((lookupKV m init).getD 0 +
          ((items.filter (fun x => decide (key x = m))).map val).sum)
        else none := by
  intro items
  induction items with
  | nil =>
    intro init m
    simp only [List.foldl_nil, List.any_nil, List.filter_nil, List.map_nil,
      List.sum_nil]
    cases hl : lookupKV m init with
    | none =>
      rw [if_neg]
      simp [hl]
    | some v =>
      rw [if_pos (Or.inr (by simp [hl]))]
      simp [hl]
  | cons x xs ih =>
    intro init m
    rw [List.foldl_cons, ih]
    by_cases hx : key x = m
    · have hbump : lookupKV m (bumpKey init (key x) (val x)) =
          some ((lookupKV m init).getD 0 + val x) := by
        rw [lookupKV_bumpKey, if_pos hx.symm]
      rw [hbump]
      have hL : (xs.any (fun y => decide (key y = m)) = true) ∨
          ((some ((lookupKV m init).getD 0 + val x)).isSome = true) := Or.inr rfl
      have hR : ((x :: xs).any (fun y => decide (key y = m)) = true) ∨
          ((lookupKV m init).isSome = true) := Or.inl (by simp [hx])
      rw [if_pos hL, if_pos hR]
      rw [List.filter_cons, if_pos (by simpa using hx), List.map_cons, List.sum_cons]
      simp only [Option.getD_some]
      ring_nf
    · have hbump : lookupKV m (bumpKey init (key x) (val x)) = lookupKV m init := by
        rw [lookupKV_bumpKey, if_neg (fun hh => hx hh.symm)]
      rw [hbump]
      have hdx : decide (key x = m) = false := by simp [hx]
      rw [List.any_cons, List.filter_cons]
      simp only [hdx, Bool.false_or, Bool.false_eq_true, if_false]

theorem run_monthlyRows (monthKey : Date → String)
    (trades : List TradingRecord) (external_cfs : List (Date × ℚ))
    (raw : List (String × List (Date × ℚ))) (currencies : String → Option String)
    (today : Date) (hne : trades ≠ []) :
    (precompute_portfolio_data monthKey trades external_cfs raw currencies
      today).monthlyRows = computeMonthly monthKey trades external_cfs := by
  unfold precompute_portfolio_data
  rw [if_neg (run_not_empty_guard hne)]

theorem filter_eq_nil_of_any_false {α : Type} {p : α → Bool} {l : List α}
    (h : ¬(l.any p = true)) : l.filter p = [] := by
  rw [List.filter_eq_nil_iff]
  intro a ha hpa
  exact h (List.any_eq_true.mpr ⟨a, ha, hpa⟩)

/-- C9 (amended): a run's monthly-contribution bucket for month `m` exists
iff some trade or some *filtered* external cash-flow event falls in `m`, and
then equals the BUY/SELL trade notional sum plus the net amounts of the
*filtered* external events of that month.  Only the filtered view (classes
{payment received, withdrawal, ISA transfer in}) reaches the buckets — the
same view that feeds the XIRR input; raw events outside those classes never
reach any bucket. -/
theorem monthly_bucket_spec (monthKey : Date → String)
    (trades : List TradingRecord) (ledger : List CashRecord)
    (raw : List (String × List (Date × ℚ))) (currencies : String → Option String)
    (today : Date) (hne : trades ≠ []) (m : String) :
    lookupKV m (precompute_portfolio_data monthKey trades
      (get_external_cash_flows ledger) raw currencies today).monthlyRows =
      (if (trades.any (fun t => decide (monthKey (tradeDate t) = m)) = true) ∨
          ((get_external_cash_flows ledger).any
            (fun e => decide (monthKey e.1 = m)) = true)
       then some
         (((trades.filter (fun t => decide (monthKey (tradeDate t) = m))).map
            tradeMonthDelta).sum +
          (((get_external_cash_flows ledger).filter
            (fun e => decide (monthKey e.1 = m))).map Prod.snd).sum)
       else none) := by
  rw [run_monthlyRows monthKey trades (get_external_cash_flows ledger) raw
    currencies today hne]
  unfold computeMonthly
  rw [lookupKV_bump_fold (fun e : Date × ℚ => monthKey e.1) Prod.snd,
    lookupKV_bump_fold (fun t : TradingRecord => monthKey (tradeDate t))
      tradeMonthDelta]
  have hinitnil : lookupKV m ([] : List (String × ℚ)) = none := rfl
  rw [hinitnil]
  simp only [Option.isSome_none, Bool.false_eq_true, or_false, Option.getD_none,
    zero_add]
  by_cases htr : trades.any (fun t => decide (monthKey (tradeDate t) = m)) = true
  · rw [if_pos htr]
    have hL : (((get_external_cash_flows ledger).any
          (fun x => decide (monthKey x.1 = m))) = true) ∨
        ((some ((trades.filter
          (fun x => decide (monthKey (tradeDate x) = m))).map tradeMonthDelta).sum).isSome
          = true) := Or.inr rfl
    have hR : ((trades.any (fun t => decide (monthKey (tradeDate t) = m))) = true) ∨
        (((get_external_cash_flows ledger).any
          (fun e => decide (monthKey e.1 = m))) = true) := Or.inl htr
    rw [if_pos hL, if_pos hR]
    simp only [Option.getD_some]
  · rw [if_neg htr]
    simp only [Option.isSome_none, Bool.false_eq_true, or_false, Option.getD_none,
      zero_add]
    have hfil : trades.filter (fun t => decide (monthKey (tradeDate t) = m)) = [] :=
      filter_eq_nil_of_any_false htr
    rw [hfil]
    simp only [List.map_nil, List.sum_nil, zero_add]
    by_cases hev : (get_external_cash_flows ledger).any
        (fun e => decide (monthKey e.1 = m)) = true
    · have hR : ((trades.any (fun t => decide (monthKey (tradeDate t) = m))) = true) ∨
          (((get_external_cash_flows ledger).any
            (fun e => decide (monthKey e.1 = m))) = true) := Or.inr hev
      rw [if_pos hev, if_pos hR]
    · have hR : ¬(((trades.any (fun t => decide (monthKey (tradeDate t) = m))) = true) ∨
          (((get_external_cash_flows ledger).any
            (fun e => decide (monthKey e.1 = m))) = true)) := by
        rintro (h | h)
        · exact htr h
        · exact hev h
      rw [if_neg hev, if_neg hR]

/-- Modelled from the claim's words (C9), for comparison with the code:
monthly bucketing that consumes the FULL raw cash-flow ledger — every event,
regardless of its classification tag, adds its signed net amount to the
bucket keyed by its own month (trades contribute BUY/SELL notionals exactly
as in the code). -/
def monthlyClaimedC9 (monthKey : Date → String) (trades : List TradingRecord)
    (ledger : List CashRecord) : List (String × ℚ) :=
  ledger.foldl (fun m r => bumpKey m (monthKey r.date) r.net_flow)
    (trades.foldl
      (fun m t => bumpKey m (monthKey (tradeDate t)) (tradeMonthDelta t)) [])

/-- Counterexample for C9 as stated: a raw cash-flow event tagged
"INTEREST" (50 on day 40, month "B") is outside the filtered classes, so the
run's monthly buckets contain no "B" bucket at all, while the claimed
full-ledger bucketing gives the "B" bucket the amount 50. -/
theorem monthly_bucket_counterexample :
    lookupKV "B" (precompute_portfolio_data (fun d => if d < 31 then "A" else "B")
      [⟨"IS", "OTHER", 1, 1, 100, 0, 0, "b", "a", some "TK"⟩]
      (get_external_cash_flows [⟨40, "INTEREST", 50⟩]) [] (fun _ => none)
      0).monthlyRows = none ∧
    lookupKV "B" (monthlyClaimedC9 (fun d => if d < 31 then "A" else "B")
      [⟨"IS", "OTHER", 1, 1, 100, 0, 0, "b", "a", some "TK"⟩]
      [⟨40, "INTEREST", 50⟩]) = some 50 := by
  constructor
  · rw [run_monthlyRows _ _ _ _ _ _ (List.cons_ne_nil _ _)]
    decide
  · decide

/-- Witness for the amended C9: one non-BUY/SELL trade in month "A", one
"Payment Received" external event (50, day 40, month "B"); the bucket
equation is instantiated at month "B". -/
theorem monthly_bucket_spec_witness :
    lookupKV "B" (precompute_portfolio_data (fun d => if d < 31 then "A" else "B")
      [⟨"IS", "OTHER", 1, 1, 100, 0, 0, "b", "a", some "TK"⟩]
      (get_external_cash_flows [⟨40, "Payment Received", 50⟩]) [] (fun _ => none)
      0).monthlyRows =
      (if (([⟨"IS", "OTHER", 1, 1, 100, 0, 0, "b", "a", some "TK"⟩].any
            (fun t : TradingRecord =>
              decide ((fun d : Date => if d < 31 then "A" else "B") (tradeDate t) = "B"))) = true) ∨
          (((get_external_cash_flows [⟨40, "Payment Received", 50⟩]).any
            (fun e => decide ((fun d : Date => if d < 31 then "A" else "B") e.1 = "B"))) = true)
       then some
         ((([⟨"IS", "OTHER", 1, 1, 100, 0, 0, "b", "a", some "TK"⟩].filter
            (fun t : TradingRecord =>
              decide ((fun d : Date => if d < 31 then "A" else "B") (tradeDate t) = "B"))).map
            tradeMonthDelta).sum +
          (((get_external_cash_flows [⟨40, "Payment Received", 50⟩]).filter
            (fun e => decide ((fun d : Date => if d < 31 then "A" else "B") e.1 = "B"))).map
            Prod.snd).sum)
       else none) :=
  monthly_bucket_spec (fun d => if d < 31 then "A" else "B")
    [⟨"IS", "OTHER", 1, 1, 100, 0, 0, "b", "a", some "TK"⟩]
    [⟨40, "Payment Received", 50⟩] [] (fun _ => none) 0
    (List.cons_ne_nil _ _) "B"
